import Mathlib

/-!
Verification of the RiptideKV storage engine (an LSM-tree key-value store).

Shallow embedding of the Rust sources:
  crates/memtable/src/lib.rs   — `Memtable` (BTreeMap modelled as a sorted
                                  association list), `ValueEntry`
  crates/engine/src/write.rs   — `Engine::set`, `Engine::del`, `Engine::flush`
  crates/engine/src/read.rs    — `Engine::get`, `Engine::scan`
  crates/engine/src/compaction.rs — the tombstone filter of `Engine::compact`
  crates/engine/src/lib.rs     — manifest bootstrap in `Engine::new`
  crates/engine/src/manifest.rs — `Manifest::add`, `l0_filenames`
  crates/wal/src/lib.rs        — `WalReader::replay` at byte level
  crates/sstable/src/writer.rs — `SSTableWriter::write_internal` at byte level
  crates/sstable/src/reader.rs — `SSTableReader::open` / `get` at byte level
  crates/sstable/src/merge.rs  — `MergeIterator::next_entry`
  crates/bloom/src/lib.rs      — `BloomFilter`

Bytes are `List Nat` (byte values < 256 where that matters); machine
integers are `Nat` with explicit `% 2 ^ 64` where the Rust code wraps.
Byte-vector comparison uses Mathlib's lexicographic `LinearOrder (List Nat)`,
which agrees with `Ord for Vec<u8>` in Rust.
-/

namespace RiptideKV

/-- Byte strings (`Vec<u8>` / `&[u8]` in the source). -/
abbrev Bytes := List Nat

/-- `MAX_KEY_SIZE` from crates/engine/src/lib.rs (64 KiB). -/
def MAX_KEY_SIZE : Nat := 64 * 1024

/-- `MAX_VALUE_SIZE` from crates/engine/src/lib.rs (10 MiB). -/
def MAX_VALUE_SIZE : Nat := 10 * 1024 * 1024

/-- Largest value of a `u64`. -/
def U64_LIMIT : Nat := 2 ^ 64

/-- `memtable::ValueEntry`: a sequence number paired with an optional value;
`value = none` is a tombstone. -/
structure ValueEntry where
  seq : Nat
  value : Option Bytes
deriving Repr, DecidableEq

/-! ### Sorted association lists — the model of `BTreeMap<Vec<u8>, V>`

A `BTreeMap` is modelled as a list of key-value pairs whose keys are strictly
increasing.  `mapGet` is `BTreeMap::get`, `mapInsert` is `BTreeMap::insert`
(replacing the value when the key is already present). -/

/-- `BTreeMap::get`: first binding of `k`, if any. -/
def mapGet {α : Type} (l : List (Bytes × α)) (k : Bytes) : Option α :=
  match l with
  | [] => none
  | (k', v) :: t => if k = k' then some v else mapGet t k

/-- `BTreeMap::insert`: insert or replace, keeping keys sorted. -/
def mapInsert {α : Type} (l : List (Bytes × α)) (k : Bytes) (v : α) :
    List (Bytes × α) :=
  match l with
  | [] => [(k, v)]
  | (k', v') :: t =>
    if k < k' then (k, v) :: (k', v') :: t
    else if k = k' then (k, v) :: t
    else (k', v') :: mapInsert t k v

/-- Keys of an association list. -/
def mapKeys {α : Type} (l : List (Bytes × α)) : List Bytes := l.map Prod.fst

/-- Well-formedness of the `BTreeMap` model: strictly ascending keys. -/
def SortedKeys {α : Type} (l : List (Bytes × α)) : Prop :=
  (mapKeys l).Pairwise (· < ·)

/-! ### Memtable — crates/memtable/src/lib.rs -/

/-- Length of the live value of an entry (`0` for a tombstone); the
contribution of the value to `approx_size`. -/
def liveLen (v : Option Bytes) : Nat :=
  match v with
  | some bs => bs.length
  | none => 0

/-- `Memtable`: a `BTreeMap<Vec<u8>, ValueEntry>` plus the tracked
approximate byte size. -/
structure Memtable where
  map : List (Bytes × ValueEntry)
  approx_size : Nat
deriving Repr, DecidableEq

namespace Memtable

/-- `Memtable::new`. -/
def new : Memtable := ⟨[], 0⟩

/-- `Memtable::put`.  A write with `seq ≤` the existing entry's seq is
ignored; otherwise the entry is replaced and `approx_size` adjusted
(`saturating_sub` is `Nat` subtraction). -/
def put (m : Memtable) (key value : Bytes) (seq : Nat) : Memtable :=
  match mapGet m.map key with
  | some old =>
    if old.seq ≥ seq then m
    else
      { map := mapInsert m.map key ⟨seq, some value⟩,
        approx_size := m.approx_size - liveLen old.value + value.length }
  | none =>
      { map := mapInsert m.map key ⟨seq, some value⟩,
        approx_size := m.approx_size + key.length + value.length }

/-- `Memtable::delete`: record a tombstone, with the same staleness rule. -/
def delete (m : Memtable) (key : Bytes) (seq : Nat) : Memtable :=
  match mapGet m.map key with
  | some old =>
    if old.seq ≥ seq then m
    else
      { map := mapInsert m.map key ⟨seq, none⟩,
        approx_size := m.approx_size - liveLen old.value }
  | none =>
      { map := mapInsert m.map key ⟨seq, none⟩,
        approx_size := m.approx_size + key.length }

/-- `Memtable::get`: live entries only; tombstones and missing keys give
`none`. -/
def get (m : Memtable) (key : Bytes) : Option (Nat × Bytes) :=
  (mapGet m.map key).bind fun e => e.value.map fun v => (e.seq, v)

/-- `Memtable::get_entry`: the raw entry, tombstones included. -/
def get_entry (m : Memtable) (key : Bytes) : Option ValueEntry :=
  mapGet m.map key

/-- `Memtable::contains_key`. -/
def contains_key (m : Memtable) (key : Bytes) : Bool :=
  (mapGet m.map key).isSome

/-- `Memtable::iter`: ascending `(key, entry)` pairs — the map itself. -/
def iter (m : Memtable) : List (Bytes × ValueEntry) := m.map

/-- `Memtable::len`. -/
def len (m : Memtable) : Nat := m.map.length

/-- `Memtable::is_empty`. -/
def is_empty (m : Memtable) : Bool := m.map.isEmpty

/-- `Memtable::clear`. -/
def clear (_m : Memtable) : Memtable := ⟨[], 0⟩

end Memtable

/-- The specified meaning of `approx_size`: sum over entries of
(key length + live value length). -/
def msize (l : List (Bytes × ValueEntry)) : Nat :=
  (l.map fun p => p.1.length + liveLen p.2.value).sum

/-- One memtable mutation, for quantifying over all reachable memtables. -/
inductive MemOp where
  | put (key value : Bytes) (seq : Nat)
  | del (key : Bytes) (seq : Nat)
  | clear
deriving Repr

/-- Apply a list of mutations to a memtable, oldest first. -/
def applyMemOps (ops : List MemOp) (m : Memtable) : Memtable :=
  match ops with
  | [] => m
  | MemOp.put k v s :: t => applyMemOps t (m.put k v s)
  | MemOp.del k s :: t => applyMemOps t (m.delete k s)
  | MemOp.clear :: t => applyMemOps t m.clear

/-- Well-formedness of a memtable: sorted map and accurate `approx_size`. -/
def MemtableWF (m : Memtable) : Prop :=
  SortedKeys m.map ∧ m.approx_size = msize m.map

/-! ### Merge iterator — crates/sstable/src/merge.rs

A reader, as seen by `MergeIterator`, is its in-memory index: an ascending
list of distinct keys, each resolving (via `SSTableReader::get`) to a
`ValueEntry`.  We model a reader as that sorted association list.

`MergeIterator` keeps a min-heap of `(key, source)` holding the current head
key of every non-exhausted source.  Because each source's keys are strictly
ascending and each source has at most one heap entry, one `next_entry` call
pops the minimum head key `m`, drains every other source whose head is also
`m` (keeping the entry with the strictly greatest seq, earlier source wins
ties), and advances exactly those sources.  The functional restatement below
performs that same step: find the minimum head key, fold the heads equal to
it in source order keeping the strictly-greater seq, and advance all sources
whose head key is the minimum.  Successors pushed while draining are
strictly greater than `m`, so they never join the drain of `m` — the two
formulations emit identical streams on sorted distinct-key sources. -/

/-- A merge source: the remaining (key, entry) pairs of one reader,
ascending by key. -/
abbrev Src := List (Bytes × ValueEntry)

/-- The minimum of the sources' current head keys (the top of the heap). -/
def minHead? (srcs : List Src) : Option Bytes :=
  srcs.foldl
    (fun acc s =>
      match s.head? with
      | some (k, _) => match acc with
        | none => some k
        | some m => if k < m then some k else some m
      | none => acc)
    none

/-- The entry emitted for key `m`: fold over the sources whose head key is
`m` in source order, replacing the candidate only on strictly greater seq
(`dup_entry.seq > best_entry.seq` in the source). -/
def bestAt (srcs : List Src) (m : Bytes) : Option ValueEntry :=
  srcs.foldl
    (fun acc s =>
      match s.head? with
      | some (k, e) =>
        if k = m then
          match acc with
          | none => some e
          | some b => if e.seq > b.seq then some e else some b
        else acc
      | none => acc)
    none

/-- Advance one source past its head if the head's key is `m`. -/
def advanceOne (s : Src) (m : Bytes) : Src :=
  match s.head? with
  | some (k, _) => if k = m then s.tail else s
  | none => s

/-- Advance every source whose head key is `m` past that head. -/
def advanceAt (srcs : List Src) (m : Bytes) : List Src :=
  srcs.map fun s => advanceOne s m

/-- Total number of pending pairs across all sources. -/
def totalLen (srcs : List Src) : Nat := (srcs.map List.length).sum

/-- The stream of `MergeIterator::next_entry` results until exhaustion,
driven by fuel (each step consumes at least one pair, so
`totalLen srcs` fuel suffices). -/
def mergeGo (fuel : Nat) (srcs : List Src) : List (Bytes × ValueEntry) :=
  match fuel with
  | 0 => []
  | fuel + 1 =>
    match minHead? srcs with
    | none => []
    | some m =>
      match bestAt srcs m with
      | none => []
      | some e => (m, e) :: mergeGo fuel (advanceAt srcs m)

/-- Everything the merge iterator emits (`MergeIterator::collect_all`). -/
def mergeAll (srcs : List Src) : List (Bytes × ValueEntry) :=
  mergeGo (totalLen srcs) srcs

/-- Modelled from the spec: the seqs stored for key `k` across the readers
that contain `k` (used to state merge-dedup and read-path claims). -/
def seqsFor (srcs : List Src) (k : Bytes) : List Nat :=
  srcs.filterMap fun s => (mapGet s k).map ValueEntry.seq

/-- A concrete pair of single-key readers sharing key `[1]` (seqs 4 and 9),
used to exercise the merge on a duplicated key. -/
def c6srcs : List Src :=
  [[([1], ⟨4, some [7]⟩)], [([1], ⟨9, some [8]⟩)]]

/-- A concrete two-entry memtable (one live key, one tombstone), used to
exercise the SSTable write/read round-trip. -/
def c5mem : Memtable :=
  ⟨[([1], ⟨5, some [9]⟩), ([2], ⟨6, none⟩)], 3⟩

/-! ### Engine — crates/engine/src/{lib,write,read,compaction}.rs

The engine state carries the fields that the verified claims touch: the
memtable, the L0/L1 reader lists (each reader modelled by its key → entry
map, newest first), the WAL contents as a list of records, the sequence
number, and the two thresholds.  File paths, the manifest object, and the
buffered writer handle are not observable by these claims and are omitted.
File-system effects are modelled by their contents: a flushed SSTable is the
memtable's pair list (the SSTable round-trip proved for the sstable crate
below), and WAL truncation empties the record list. -/

/-- `wal::WalRecord`. -/
inductive WalRecord where
  | put (seq : Nat) (key value : Bytes)
  | del (seq : Nat) (key : Bytes)
deriving Repr, DecidableEq

/-- Injected environment failures for the fallible I/O calls on the write
path: `WalWriter::append`, and the flush sub-machine's file operations
(SSTable write, manifest save, WAL truncate). -/
structure Env where
  walAppendFails : Bool
  flushIoFails : Bool
deriving Repr, DecidableEq

/-- Error kinds surfaced by `set` / `del` (engine §7 taxonomy). -/
inductive EngErr where
  | invalidInput
  | seqOverflow
  | ioFailure
deriving Repr, DecidableEq

/-- The entries stored for key `k` among a flat list of pairs, in order
(used to reason about the scan merge). -/
def valsAt (ps : List (Bytes × ValueEntry)) (k : Bytes) : List ValueEntry :=
  ps.filterMap fun p => if p.1 = k then some p.2 else none

/-- The resolution applied by repeated `merge_entry` calls on one key:
starting from an optional existing entry, keep the entry with seq ≥ on
collision (existing wins ties). -/
def pickBest (o : Option ValueEntry) (es : List ValueEntry) : Option ValueEntry :=
  es.foldl
    (fun acc e =>
      match acc with
      | none => some e
      | some b => if b.seq ≥ e.seq then some b else some e)
    o

/-- The engine state (subset of `struct Engine` observable by the claims). -/
structure EngineSt where
  mem : Memtable
  l0_sstables : List Src
  l1_sstables : List Src
  wal : List WalRecord
  seq : Nat
  flush_threshold : Nat
  l0_compaction_trigger : Nat
deriving Repr, DecidableEq

namespace EngineSt

/-- Probe a list of SSTable readers in order, returning the first reader's
entry for `key` (the `for sst in ...` loops of `Engine::get`). -/
def probeSSTables (ssts : List Src) (key : Bytes) : Option ValueEntry :=
  match ssts with
  | [] => none
  | r :: t =>
    match mapGet r key with
    | some e => some e
    | none => probeSSTables t key

/-- `Engine::get` (read.rs): memtable first, then L0 newest-first, then L1
newest-first; the first entry found decides, tombstones giving `none`. -/
def get (st : EngineSt) (key : Bytes) : Option (Nat × Bytes) :=
  match st.mem.get_entry key with
  | some e => e.value.map fun v => (e.seq, v)
  | none =>
    match probeSSTables st.l0_sstables key with
    | some e => e.value.map fun v => (e.seq, v)
    | none =>
      match probeSSTables st.l1_sstables key with
      | some e => e.value.map fun v => (e.seq, v)
      | none => none

/-- The range test of `Engine::scan`: a key is kept unless
(`start` non-empty and `key < start`) or (`end` non-empty and `key ≥ end`). -/
def rangeKeep (start stop key : Bytes) : Bool :=
  !(!start.isEmpty && decide (key < start)) && !(!stop.isEmpty && decide (stop ≤ key))

/-- The `merge_entry` closure of `Engine::scan`: insert unless an entry with
seq ≥ the new entry's seq is already present. -/
def mergeEntry (merged : List (Bytes × ValueEntry)) (k : Bytes) (e : ValueEntry) :
    List (Bytes × ValueEntry) :=
  match mapGet merged k with
  | some existing => if existing.seq ≥ e.seq then merged else mapInsert merged k e
  | none => mapInsert merged k e

/-- One pair of one source, as processed by the scan walk: apply the range
filter, then `merge_entry`. -/
def scanStep (start stop : Bytes) (acc : List (Bytes × ValueEntry))
    (p : Bytes × ValueEntry) : List (Bytes × ValueEntry) :=
  if rangeKeep start stop p.1 then mergeEntry acc p.1 p.2 else acc

/-- Fold one source's pairs into the scan accumulator, applying the range
filter then `merge_entry`. -/
def scanFoldSource (start stop : Bytes) (merged : List (Bytes × ValueEntry))
    (src : Src) : List (Bytes × ValueEntry) :=
  src.foldl (scanStep start stop) merged

/-- `Engine::scan` (read.rs): walk memtable, L0 readers, L1 readers into a
`BTreeMap` keeping the highest-seq entry per key, then drop tombstones. -/
def scan (st : EngineSt) (start stop : Bytes) : List (Bytes × Bytes) :=
  let merged := (st.mem.iter :: (st.l0_sstables ++ st.l1_sstables)).foldl
    (scanFoldSource start stop) []
  merged.filterMap fun p => p.2.value.map fun v => (p.1, v)

/-- The tombstone filter of `Engine::compact` (compaction.rs line 83): a
merged pair is skipped exactly when it is a tombstone AND the memtable
contains its key (`entry.value.is_none() && mem_ref.contains_key(&key)`). -/
def compactionKeep (mem : Memtable) (k : Bytes) (e : ValueEntry) : Bool :=
  !(e.value.isNone && mem.contains_key k)

/-- The stream that compaction writes to the new L1 SSTable: the merge
iterator's output filtered by `compactionKeep`. -/
def compactionOutput (mem : Memtable) (srcs : List Src) :
    List (Bytes × ValueEntry) :=
  (mergeAll srcs).filter fun p => compactionKeep mem p.1 p.2

/-- `Engine::compact`: no-op when ≤ 1 SSTables; otherwise merge L0 ++ L1,
filter tombstones, and either clear both levels (empty result) or install
the merged table as the sole L1 reader. -/
def compact (st : EngineSt) : EngineSt :=
  if st.l0_sstables.length + st.l1_sstables.length ≤ 1 then st
  else
    let out := compactionOutput st.mem (st.l0_sstables ++ st.l1_sstables)
    if out.isEmpty then { st with l0_sstables := [], l1_sstables := [] }
    else { st with l0_sstables := [], l1_sstables := [out] }

/-- The flush sub-machine of write.rs: write the memtable as a new L0
SSTable, save the manifest, truncate the WAL, clear the memtable, prepend
the new reader to L0, and auto-compact when the trigger is reached.  A
failing file operation surfaces the error with the engine state otherwise
untouched (the SSTable write fails before any engine field changes). -/
def flush (st : EngineSt) (env : Env) : Except EngErr Unit × EngineSt :=
  if env.flushIoFails then (Except.error EngErr.ioFailure, st)
  else
    let st' : EngineSt :=
      { st with
        l0_sstables := st.mem.iter :: st.l0_sstables,
        wal := [],
        mem := st.mem.clear }
    if st'.l0_compaction_trigger > 0 ∧
        st'.l0_sstables.length ≥ st'.l0_compaction_trigger then
      (Except.ok (), st'.compact)
    else (Except.ok (), st')

/-- `Engine::set` (write.rs): validate, advance seq with overflow check,
append to the WAL, apply to the memtable, flush when the threshold is
reached.  The pair returns the call's result together with the state the
engine is left in (Rust mutates `&mut self` in place). -/
def set (st : EngineSt) (env : Env) (key value : Bytes) :
    Except EngErr Unit × EngineSt :=
  if key.isEmpty then (Except.error EngErr.invalidInput, st)
  else if key.length > MAX_KEY_SIZE then (Except.error EngErr.invalidInput, st)
  else if value.length > MAX_VALUE_SIZE then (Except.error EngErr.invalidInput, st)
  else if st.seq + 1 = U64_LIMIT then (Except.error EngErr.seqOverflow, st)
  else
    let st1 : EngineSt := { st with seq := st.seq + 1 }
    if env.walAppendFails then (Except.error EngErr.ioFailure, st1)
    else
      let st2 : EngineSt :=
        { st1 with
          wal := st1.wal ++ [WalRecord.put st1.seq key value],
          mem := st1.mem.put key value st1.seq }
      if st2.mem.approx_size ≥ st2.flush_threshold then st2.flush env
      else (Except.ok (), st2)

/-- `Engine::del` (write.rs): same state machine with a tombstone. -/
def del (st : EngineSt) (env : Env) (key : Bytes) :
    Except EngErr Unit × EngineSt :=
  if key.isEmpty then (Except.error EngErr.invalidInput, st)
  else if key.length > MAX_KEY_SIZE then (Except.error EngErr.invalidInput, st)
  else if st.seq + 1 = U64_LIMIT then (Except.error EngErr.seqOverflow, st)
  else
    let st1 : EngineSt := { st with seq := st.seq + 1 }
    if env.walAppendFails then (Except.error EngErr.ioFailure, st1)
    else
      let st2 : EngineSt :=
        { st1 with
          wal := st1.wal ++ [WalRecord.del st1.seq key],
          mem := st1.mem.delete key st1.seq }
      if st2.mem.approx_size ≥ st2.flush_threshold then st2.flush env
      else (Except.ok (), st2)

/-- The engine's read sources in probe order: memtable, then L0 newest
first, then L1 newest first. -/
def sources (st : EngineSt) : List Src :=
  st.mem.iter :: (st.l0_sstables ++ st.l1_sstables)

/-- Modelled from the spec: the entry for `key` with the highest seq across
memtable ∪ L0 ∪ L1 (first source wins ties). -/
def highestEntry (st : EngineSt) (key : Bytes) : Option ValueEntry :=
  (st.sources.filterMap fun s => mapGet s key).foldl
    (fun acc e =>
      match acc with
      | none => some e
      | some b => if e.seq > b.seq then some e else some b)
    none

/-- The well-formedness the running engine maintains: whenever two sources
both contain a key, the earlier source in probe order holds the strictly
larger seq (fresher data sits in front). -/
def ProbeOrdered (st : EngineSt) : Prop :=
  st.sources.Pairwise fun s t =>
    ∀ k e₁ e₂, mapGet s k = some e₁ → mapGet t k = some e₂ → e₂.seq < e₁.seq

end EngineSt

/-! ### Manifest — crates/engine/src/manifest.rs and the bootstrap branch of
`Engine::new` (crates/engine/src/lib.rs lines 222–251). -/

/-- `manifest::SstMeta`. -/
structure SstMeta where
  filename : String
  level : Nat
deriving Repr, DecidableEq

/-- `Manifest::add`: insert at the position of the first entry of the same
level (the end of the list when the level is not yet present). -/
def manifestAdd (entries : List SstMeta) (filename : String) (level : Nat) :
    List SstMeta :=
  let pos := (entries.findIdx fun e => e.level = level)
  entries.take pos ++ ⟨filename, level⟩ :: entries.drop pos

/-- `Manifest::l0_filenames`: L0 filenames in manifest order. -/
def l0Filenames (entries : List SstMeta) : List String :=
  (entries.filter fun e => e.level = 0).map SstMeta.filename

/-- The manifest bootstrap of `Engine::new`: with no manifest, the
discovered `.sst` paths are sorted lexicographically descending
(newest first) and each is `add`ed to the manifest at level 0, in that
order. -/
def bootstrapManifest (pathsDescending : List String) : List SstMeta :=
  pathsDescending.foldl (fun m name => manifestAdd m name 0) []

/-! ### Little-endian integer encoding and CRC32 -/

/-- Little-endian `u32` encoding. -/
def u32le (n : Nat) : Bytes :=
  [n % 256, n / 256 % 256, n / 256 ^ 2 % 256, n / 256 ^ 3 % 256]

/-- Little-endian `u64` encoding. -/
def u64le (n : Nat) : Bytes :=
  [n % 256, n / 256 % 256, n / 256 ^ 2 % 256, n / 256 ^ 3 % 256,
   n / 256 ^ 4 % 256, n / 256 ^ 5 % 256, n / 256 ^ 6 % 256, n / 256 ^ 7 % 256]

/-- `read_u32::<LittleEndian>` on a byte stream: the value and the remaining
bytes, or `none` when fewer than 4 bytes remain (`UnexpectedEof`). -/
def readU32? (l : Bytes) : Option (Nat × Bytes) :=
  match l with
  | b0 :: b1 :: b2 :: b3 :: rest =>
    some (b0 + 256 * b1 + 256 ^ 2 * b2 + 256 ^ 3 * b3, rest)
  | _ => none

/-- `read_u64::<LittleEndian>` on a byte stream. -/
def readU64? (l : Bytes) : Option (Nat × Bytes) :=
  match l with
  | b0 :: b1 :: b2 :: b3 :: b4 :: b5 :: b6 :: b7 :: rest =>
    some (b0 + 256 * b1 + 256 ^ 2 * b2 + 256 ^ 3 * b3 + 256 ^ 4 * b4 +
          256 ^ 5 * b5 + 256 ^ 6 * b6 + 256 ^ 7 * b7, rest)
  | _ => none

/-- `read_u8` on a byte stream. -/
def readU8? (l : Bytes) : Option (Nat × Bytes) :=
  match l with
  | b :: rest => some (b, rest)
  | [] => none

/-- One shift-or-xor round of CRC-32 (reflected polynomial `0xEDB88320`). -/
def crc32Round (c : Nat) : Nat :=
  if c % 2 = 1 then (c / 2) ^^^ 0xEDB88320 else c / 2

/-- Feed one byte into the CRC-32 state. -/
def crc32Byte (c b : Nat) : Nat :=
  (crc32Round ∘ crc32Round ∘ crc32Round ∘ crc32Round ∘
   crc32Round ∘ crc32Round ∘ crc32Round ∘ crc32Round) (c ^^^ b % 256)

/-- CRC-32 (IEEE, as computed by the `crc32fast::Hasher`) of a byte list. -/
def crc32 (data : Bytes) : Nat :=
  (data.foldl crc32Byte 0xFFFFFFFF) ^^^ 0xFFFFFFFF

/-! ### WAL — crates/wal/src/lib.rs -/

/-- `MAX_RECORD_SIZE` from `WalReader::replay` (64 MiB). -/
def WAL_MAX_RECORD_SIZE : Nat := 64 * 1024 * 1024

/-- Errors of `WalReader::replay`: `WalError::Corrupt`, or `WalError::Io`
carrying an `UnexpectedEof` raised by a read inside a fully-read frame. -/
inductive WalErr where
  | corrupt
  | ioEof
deriving Repr, DecidableEq

/-- The body serialization of `WalWriter::append`:
Put `seq | op=0 | key_len | key | val_len | val`,
Del `seq | op=1 | key_len | key` (little-endian). -/
def encodeWalBody (r : WalRecord) : Bytes :=
  match r with
  | WalRecord.put seq key value =>
    u64le seq ++ [0] ++ u32le key.length ++ key ++ u32le value.length ++ value
  | WalRecord.del seq key =>
    u64le seq ++ [1] ++ u32le key.length ++ key

/-- The full frame written by `WalWriter::append`:
`record_len(u32) | crc32(u32) | body` with `record_len = |body| + 4`. -/
def encodeWalFrame (r : WalRecord) : Bytes :=
  let body := encodeWalBody r
  u32le (body.length + 4) ++ u32le (crc32 body) ++ body

/-- Concatenation of frames: the WAL file contents after appending `rs`. -/
def encodeWal (rs : List WalRecord) : Bytes :=
  (rs.map encodeWalFrame).flatten

/-- A record the writer can produce: seq fits in a `u64` and the frame fits
under the reader's 64 MiB `record_len` cap (the writer's own cap is the
larger `u32::MAX`; records between the two caps cannot round-trip and the
engine's key/value limits keep far below both). -/
def WalRecordWF (r : WalRecord) : Prop :=
  match r with
  | WalRecord.put seq key value =>
    seq < U64_LIMIT ∧ 17 + key.length + value.length + 4 ≤ WAL_MAX_RECORD_SIZE
  | WalRecord.del seq key =>
    seq < U64_LIMIT ∧ 13 + key.length + 4 ≤ WAL_MAX_RECORD_SIZE

/-- The body parser inside `WalReader::replay`: reads `seq`, `op`,
`key_len` and the key from the frame body; op 0 additionally reads
`val_len` and the value.  A read past the end of the body slice is an
`UnexpectedEof` I/O error (`WalError::Io`), while `key_len > body_len`,
`val_len > body_len` and an unknown op are `WalError::Corrupt`. -/
def parseWalBody (body : Bytes) : Except WalErr WalRecord :=
  let bodyLen := body.length
  match readU64? body with
  | none => Except.error WalErr.ioEof
  | some (seq, r1) =>
    match readU8? r1 with
    | none => Except.error WalErr.ioEof
    | some (op, r2) =>
      match readU32? r2 with
      | none => Except.error WalErr.ioEof
      | some (keyLen, r3) =>
        if keyLen > bodyLen then Except.error WalErr.corrupt
        else if r3.length < keyLen then Except.error WalErr.ioEof
        else
          let key := r3.take keyLen
          let r4 := r3.drop keyLen
          match op with
          | 0 =>
            match readU32? r4 with
            | none => Except.error WalErr.ioEof
            | some (valLen, r5) =>
              if valLen > bodyLen then Except.error WalErr.corrupt
              else if r5.length < valLen then Except.error WalErr.ioEof
              else Except.ok (WalRecord.put seq key (r5.take valLen))
          | 1 => Except.ok (WalRecord.del seq key)
          | _ => Except.error WalErr.corrupt

/-- The frame loop of `WalReader::replay`, with fuel (each iteration
consumes at least 9 bytes, so `bytes.length` fuel suffices).  EOF while
reading `record_len`, the CRC, or the body ends replay successfully;
`record_len ∉ (4, 64 MiB]` and a CRC mismatch are corruption. -/
def replayGo (fuel : Nat) (bytes : Bytes) : Except WalErr (List WalRecord) :=
  match fuel with
  | 0 => Except.ok []
  | fuel + 1 =>
    match readU32? bytes with
    | none => Except.ok []
    | some (recordLen, r1) =>
      if recordLen ≤ 4 ∨ recordLen > WAL_MAX_RECORD_SIZE then
        Except.error WalErr.corrupt
      else
        match readU32? r1 with
        | none => Except.ok []
        | some (crc, r2) =>
          let bodyLen := recordLen - 4
          if r2.length < bodyLen then Except.ok []
          else
            let body := r2.take bodyLen
            if crc32 body ≠ crc then Except.error WalErr.corrupt
            else
              match parseWalBody body with
              | Except.error e => Except.error e
              | Except.ok rec =>
                (replayGo fuel (r2.drop bodyLen)).map fun rs => rec :: rs

/-- `WalReader::replay`, returning the records delivered to `apply`. -/
def walReplay (bytes : Bytes) : Except WalErr (List WalRecord) :=
  replayGo bytes.length bytes

/-! ### Bloom filter — crates/bloom/src/lib.rs

`BloomFilter::new` sizes the filter with the floating-point formula
`m = ⌈-n·ln(p)/ln(2)²⌉` (floored at 8) and `k = ⌈(m/n)·ln 2⌉` (floored at
1).  Floating point is outside the embedding, so `bloomNew` takes the
resulting `m` and `k` as parameters; the claims assume only the code's
floors `m ≥ 8` and `k ≥ 1`, making the proved statements parametric in
(hence stronger than) the concrete sizing. -/

/-- `fnv1a_64` with a configurable basis (wrapping 64-bit arithmetic). -/
def fnv1a64 (data : Bytes) (basis : Nat) : Nat :=
  data.foldl (fun h b => (h ^^^ b % 256) * 0x00000100000001b3 % U64_LIMIT) basis

/-- `bloom::BloomFilter`: bit vector (as bytes), bit count, hash count. -/
structure BloomFilter where
  bits : Bytes
  num_bits : Nat
  num_hashes : Nat
deriving Repr, DecidableEq

namespace BloomFilter

/-- `BloomFilter::new` with the float sizing factored out: `m` bits
(`byte_len = (m + 7) / 8` zeroed bytes) and `k` hash functions. -/
def bloomNew (m k : Nat) : BloomFilter :=
  ⟨List.replicate ((m + 7) / 8) 0, m, k⟩

/-- `hash_pair`: two FNV-1a hashes with the two distinct bases. -/
def hash_pair (key : Bytes) : Nat × Nat :=
  (fnv1a64 key 0xcbf29ce484222325, fnv1a64 key 0x517cc1b727220a95)

/-- `get_bit_index`: `h1.wrapping_add(i.wrapping_mul(h2)) % num_bits`. -/
def get_bit_index (bf : BloomFilter) (h1 h2 i : Nat) : Nat :=
  (h1 + i * h2 % U64_LIMIT) % U64_LIMIT % bf.num_bits

/-- `set_bit`: OR bit `idx % 8` into byte `idx / 8`. -/
def set_bit (bf : BloomFilter) (idx : Nat) : BloomFilter :=
  { bf with bits := bf.bits.set (idx / 8) ((bf.bits.getD (idx / 8) 0) ||| (1 <<< (idx % 8))) }

/-- `get_bit`. -/
def get_bit (bf : BloomFilter) (idx : Nat) : Bool :=
  (bf.bits.getD (idx / 8) 0) >>> (idx % 8) % 2 = 1

/-- `BloomFilter::insert`: set the `k` probe bits of `key`. -/
def insert (bf : BloomFilter) (key : Bytes) : BloomFilter :=
  let (h1, h2) := hash_pair key
  (List.range bf.num_hashes).foldl
    (fun b i => b.set_bit (b.get_bit_index h1 h2 i)) bf

/-- `BloomFilter::may_contain`: true iff all `k` probe bits are set. -/
def may_contain (bf : BloomFilter) (key : Bytes) : Bool :=
  let (h1, h2) := hash_pair key
  (List.range bf.num_hashes).all fun i => bf.get_bit (bf.get_bit_index h1 h2 i)

/-- `BloomFilter::write_to`:
`num_bits(u64) | num_hashes(u32) | bits_len(u32) | bits`. -/
def write_to (bf : BloomFilter) : Bytes :=
  u64le bf.num_bits ++ u32le bf.num_hashes ++ u32le bf.bits.length ++ bf.bits

/-- `BloomFilter::read_from` on a byte stream; rejects
`bits_len > 128 MiB`, propagates `UnexpectedEof` as `none`. -/
def read_from (l : Bytes) : Option BloomFilter :=
  match readU64? l with
  | none => none
  | some (numBits, r1) =>
    match readU32? r1 with
    | none => none
    | some (numHashes, r2) =>
      match readU32? r2 with
      | none => none
      | some (bitsLen, r3) =>
        if bitsLen > 128 * 1024 * 1024 then none
        else if r3.length < bitsLen then none
        else some ⟨r3.take bitsLen, numBits, numHashes⟩

end BloomFilter

/-! ### SSTable writer — crates/sstable/src/writer.rs -/

/-- The body of one data record:
`key_len(u32) | key | seq(u64) | present(u8) | [val_len(u32) | val]`. -/
def encodeSstBody (k : Bytes) (e : ValueEntry) : Bytes :=
  u32le k.length ++ k ++ u64le e.seq ++
    (match e.value with
     | some v => 1 :: (u32le v.length ++ v)
     | none => [0])

/-- One data record as written: `crc32(u32) | body`. -/
def encodeSstRecord (k : Bytes) (e : ValueEntry) : Bytes :=
  u32le (crc32 (encodeSstBody k e)) ++ encodeSstBody k e

/-- The accumulating state of the data-section loop of `write_internal`:
bytes written, bloom filter, in-memory index `(key, offset)`, and max seq. -/
structure WriterAcc where
  data : Bytes
  bloom : BloomFilter
  index : List (Bytes × Nat)
  maxSeq : Nat

/-- The data-section loop: note the current offset, write `crc | body`,
insert the key into the bloom filter, push `(key, offset)`, track max seq. -/
def writeDataLoop (bloom0 : BloomFilter) (entries : List (Bytes × ValueEntry)) :
    WriterAcc :=
  entries.foldl
    (fun acc p =>
      { data := acc.data ++ encodeSstRecord p.1 p.2,
        bloom := acc.bloom.insert p.1,
        index := acc.index ++ [(p.1, acc.data.length)],
        maxSeq := max acc.maxSeq p.2.seq })
    ⟨[], bloom0, [], 0⟩

/-- The index section: `key_len(u32) | key | data_offset(u64)` per entry. -/
def encodeSstIndex (index : List (Bytes × Nat)) : Bytes :=
  (index.map fun p => u32le p.1.length ++ p.1 ++ u64le p.2).flatten

/-- `SSTABLE_MAGIC_V3` (ASCII "SST3"). -/
def SSTABLE_MAGIC_V3 : Nat := 0x53535433

/-- The v3 footer: `max_seq | bloom_offset | index_offset | magic`. -/
def encodeFooterV3 (maxSeq bloomOff indexOff : Nat) : Bytes :=
  u64le maxSeq ++ u64le bloomOff ++ u64le indexOff ++ u32le SSTABLE_MAGIC_V3

/-- `SSTableWriter::write_internal` producing the final file contents:
DATA, BLOOM, INDEX, FOOTER.  `none` models the "refusing to write an empty
SSTable" error.  `m`/`k` are the bloom sizing (see `bloomNew`). -/
def writeInternal (m k : Nat) (entries : List (Bytes × ValueEntry)) :
    Option Bytes :=
  let acc := writeDataLoop (BloomFilter.bloomNew m k) entries
  if acc.index.isEmpty then none
  else
    let bloomOff := acc.data.length
    let bloomBytes := acc.bloom.write_to
    let indexOff := bloomOff + bloomBytes.length
    some (acc.data ++ bloomBytes ++ encodeSstIndex acc.index ++
          encodeFooterV3 acc.maxSeq bloomOff indexOff)

/-- `SSTableWriter::write_from_memtable`: refuse an empty memtable, then
stream the memtable's ascending iterator. -/
def writeFromMemtable (m k : Nat) (mem : Memtable) : Option Bytes :=
  if mem.is_empty then none
  else writeInternal m k mem.iter

/-! ### SSTable reader — crates/sstable/src/{format,reader}.rs -/

/-- Parsed footer (`format::Footer`). -/
inductive Footer where
  | v1 (index_offset : Nat)
  | v2 (bloom_offset index_offset : Nat)
  | v3 (max_seq bloom_offset index_offset : Nat)
deriving Repr, DecidableEq

namespace Footer

/-- `Footer::index_offset`. -/
def index_offset : Footer → Nat
  | v1 io => io
  | v2 _ io => io
  | v3 _ _ io => io

/-- `Footer::bloom_offset`. -/
def bloom_offset : Footer → Option Nat
  | v1 _ => none
  | v2 bo _ => some bo
  | v3 _ bo _ => some bo

/-- `Footer::has_checksums`. -/
def has_checksums : Footer → Bool
  | v3 _ _ _ => true
  | _ => false

/-- `Footer::footer_size`. -/
def footer_size : Footer → Nat
  | v1 _ => 12
  | v2 _ _ => 20
  | v3 _ _ _ => 28

end Footer

/-- `format::read_footer_versioned`: read the trailing 4-byte magic, then
seek back by the version's footer size and parse the fields. -/
def readFooterVersioned (file : Bytes) : Option Footer :=
  if file.length < 12 then none
  else
    match readU32? (file.drop (file.length - 4)) with
    | none => none
    | some (magic, _) =>
      if magic = SSTABLE_MAGIC_V3 then
        if file.length < 28 then none
        else
          match readU64? (file.drop (file.length - 28)) with
          | none => none
          | some (maxSeq, r1) =>
            match readU64? r1 with
            | none => none
            | some (bloomOff, r2) =>
              match readU64? r2 with
              | none => none
              | some (indexOff, _) => some (Footer.v3 maxSeq bloomOff indexOff)
      else if magic = 0x53535432 then
        if file.length < 20 then none
        else
          match readU64? (file.drop (file.length - 20)) with
          | none => none
          | some (bloomOff, r1) =>
            match readU64? r1 with
            | none => none
            | some (indexOff, _) => some (Footer.v2 bloomOff indexOff)
      else if magic = 0x53535431 then
        match readU64? (file.drop (file.length - 12)) with
        | none => none
        | some (indexOff, _) => some (Footer.v1 indexOff)
      else none

/-- The index-loading loop of `SSTableReader::open`: while the position is
before `filesize - footer_size`, read `key_len | key | data_offset` and
insert into the `BTreeMap`; `key_len > 64 KiB` is corruption; a read past
the end of the file fails.  Fuel bounds the iterations (each consumes at
least 12 bytes). -/
def parseIndexGo (fuel : Nat) (file : Bytes) (pos boundary : Nat)
    (acc : List (Bytes × Nat)) : Option (List (Bytes × Nat)) :=
  match fuel with
  | 0 => none
  | fuel + 1 =>
    if pos < boundary then
      match readU32? (file.drop pos) with
      | none => none
      | some (keyLen, r1) =>
        if keyLen > MAX_KEY_SIZE then none
        else if r1.length < keyLen then none
        else
          let key := r1.take keyLen
          match readU64? (r1.drop keyLen) with
          | none => none
          | some (dataOff, _) =>
            parseIndexGo fuel file (pos + 4 + keyLen + 8) boundary
              (mapInsert acc key dataOff)
    else some acc

/-- The in-memory reader built by `SSTableReader::open`. -/
structure SSTReader where
  index : List (Bytes × Nat)
  bloom : Option BloomFilter
  file : Bytes
  footer : Footer
deriving Repr, DecidableEq

/-- `SSTableReader::open`: validate size, parse footer, check
`index_offset < filesize`, load bloom (v2+) and index. -/
def sstOpen (file : Bytes) : Option SSTReader :=
  if file.length < 12 then none
  else
    match readFooterVersioned file with
    | none => none
    | some footer =>
      if footer.index_offset ≥ file.length then none
      else
        let bloom? : Option (Option BloomFilter) :=
          match footer.bloom_offset with
          | some bo =>
            match BloomFilter.read_from (file.drop bo) with
            | none => none
            | some bf => some (some bf)
          | none => some none
        match bloom? with
        | none => none
        | some bloom =>
          match parseIndexGo (file.length + 1) file footer.index_offset
              (file.length - footer.footer_size) [] with
          | none => none
          | some index => some ⟨index, bloom, file, footer⟩

/-- `SSTableReader::get`: bloom fast path, index lookup, seek to the
offset, parse and validate the record (key/val caps, key echo check,
CRC32 for v3).  `Except Unit` separates corruption/IO errors from the
non-error outcomes. -/
def sstGet (r : SSTReader) (key : Bytes) : Except Unit (Option ValueEntry) :=
  let afterBloom : Except Unit (Option ValueEntry) :=
    match mapGet r.index key with
    | none => Except.ok none
    | some off =>
      let p := r.file.drop off
      let step1 : Except Unit (Option Nat × Bytes) :=
        if r.footer.has_checksums then
          match readU32? p with
          | none => Except.error ()
          | some (crc, rest) => Except.ok (some crc, rest)
        else Except.ok (none, p)
      match step1 with
      | Except.error _ => Except.error ()
      | Except.ok (storedCrc, p1) =>
        match readU32? p1 with
        | none => Except.error ()
        | some (keyLen, p2) =>
          if keyLen > MAX_KEY_SIZE then Except.error ()
          else if p2.length < keyLen then Except.error ()
          else
            let keyBuf := p2.take keyLen
            if keyBuf ≠ key then Except.error ()
            else
              match readU64? (p2.drop keyLen) with
              | none => Except.error ()
              | some (seq, p3) =>
                match readU8? p3 with
                | none => Except.error ()
                | some (present, p4) =>
                  let valRead : Except Unit (Option Bytes) :=
                    if present = 1 then
                      match readU32? p4 with
                      | none => Except.error ()
                      | some (valLen, p5) =>
                        if valLen > MAX_VALUE_SIZE then Except.error ()
                        else if p5.length < valLen then Except.error ()
                        else Except.ok (some (p5.take valLen))
                    else Except.ok none
                  match valRead with
                  | Except.error _ => Except.error ()
                  | Except.ok value =>
                    match storedCrc with
                    | some expected =>
                      let body := u32le keyLen ++ keyBuf ++ u64le seq ++
                        present ::
                          (match value with
                           | some vb => u32le vb.length ++ vb
                           | none => [])
                      if crc32 body ≠ expected then Except.error ()
                      else Except.ok (some ⟨seq, value⟩)
                    | none => Except.ok (some ⟨seq, value⟩)
  match r.bloom with
  | some bf => if ¬ bf.may_contain key then Except.ok none else afterBloom
  | none => afterBloom

/-! ## Theorems

### Sorted association list lemmas -/

theorem mapGet_insert_self {α : Type} (l : List (Bytes × α)) (k : Bytes) (v : α) :
    mapGet (mapInsert l k v) k = some v := by
  induction l with
  | nil => simp [mapInsert, mapGet]
  | cons h t ih =>
    obtain ⟨k', v'⟩ := h
    by_cases hlt : k < k'
    · simp [mapInsert, hlt, mapGet]
    · by_cases heq : k = k'
      · simp [mapInsert, hlt, heq, mapGet]
      · simp [mapInsert, hlt, heq, mapGet, ih]

theorem mapGet_insert_ne {α : Type} (l : List (Bytes × α)) (k k₂ : Bytes) (v : α)
    (hne : k₂ ≠ k) : mapGet (mapInsert l k v) k₂ = mapGet l k₂ := by
  induction l with
  | nil => simp [mapInsert, mapGet, hne]
  | cons h t ih =>
    obtain ⟨k', v'⟩ := h
    by_cases hlt : k < k'
    · simp [mapInsert, hlt, mapGet, hne]
    · by_cases heq : k = k'
      · subst heq
        simp [mapInsert, hlt, mapGet, hne]
      · by_cases h2 : k₂ = k'
        · simp [mapInsert, hlt, heq, mapGet, h2]
        · simp [mapInsert, hlt, heq, mapGet, h2, ih]

theorem mapKeys_insert_mem {α : Type} (l : List (Bytes × α)) (k : Bytes) (v : α) :
    ∀ x ∈ mapKeys (mapInsert l k v), x = k ∨ x ∈ mapKeys l := by
  induction l with
  | nil =>
    intro x hx
    simp only [mapInsert, mapKeys, List.map_cons, List.map_nil, List.mem_cons,
      List.not_mem_nil, or_false] at hx
    exact Or.inl hx
  | cons h t ih =>
    obtain ⟨k', v'⟩ := h
    intro x hx
    simp only [mapKeys, List.map_cons, List.mem_cons]
    by_cases hlt : k < k'
    · simp only [mapInsert, if_pos hlt, mapKeys, List.map_cons, List.mem_cons] at hx
      tauto
    · by_cases heq : k = k'
      · simp only [mapInsert, if_neg hlt, if_pos heq, mapKeys, List.map_cons,
          List.mem_cons] at hx
        tauto
      · simp only [mapInsert, if_neg hlt, if_neg heq, mapKeys, List.map_cons,
          List.mem_cons] at hx
        rcases hx with hx | hx
        · tauto
        · have := ih x hx
          simp only [mapKeys] at this
          tauto

theorem sortedKeys_insert {α : Type} {l : List (Bytes × α)} (h : SortedKeys l)
    (k : Bytes) (v : α) : SortedKeys (mapInsert l k v) := by
  induction l with
  | nil =>
    simp [mapInsert, SortedKeys, mapKeys]
  | cons hd t ih =>
    obtain ⟨k', v'⟩ := hd
    simp only [SortedKeys, mapKeys, List.map_cons, List.pairwise_cons] at h
    obtain ⟨hall, htail⟩ := h
    by_cases hlt : k < k'
    · simp only [mapInsert, if_pos hlt, SortedKeys, mapKeys, List.map_cons,
        List.pairwise_cons]
      refine ⟨?_, hall, htail⟩
      intro b hb
      simp only [List.mem_cons] at hb
      rcases hb with hb | hb
      · exact hb ▸ hlt
      · exact lt_trans hlt (hall b hb)
    · by_cases heq : k = k'
      · simp only [mapInsert, if_neg hlt, if_pos heq, SortedKeys, mapKeys,
          List.map_cons, List.pairwise_cons]
        subst heq
        exact ⟨hall, htail⟩
      · have hgt : k' < k := by
          rcases lt_trichotomy k k' with h1 | h1 | h1
          · exact absurd h1 hlt
          · exact absurd h1 heq
          · exact h1
        simp only [mapInsert, if_neg hlt, if_neg heq, SortedKeys, mapKeys,
          List.map_cons, List.pairwise_cons]
        refine ⟨?_, ih htail⟩
        intro b hb
        rcases mapKeys_insert_mem t k v b hb with h1 | h1
        · exact h1 ▸ hgt
        · exact hall b h1

theorem liveLen_some (bs : Bytes) : liveLen (some bs) = bs.length := rfl

theorem liveLen_none : liveLen none = 0 := rfl

theorem msize_cons (k : Bytes) (e : ValueEntry) (t : List (Bytes × ValueEntry)) :
    msize ((k, e) :: t) = k.length + liveLen e.value + msize t := by
  simp only [msize, List.map_cons, List.sum_cons]

theorem mapGet_some_mem_keys {α : Type} {l : List (Bytes × α)} {k : Bytes}
    {v : α} (h : mapGet l k = some v) : k ∈ mapKeys l := by
  induction l with
  | nil => simp [mapGet] at h
  | cons hd t ih =>
    obtain ⟨k', v'⟩ := hd
    simp only [mapKeys, List.map_cons, List.mem_cons]
    by_cases heq : k = k'
    · exact Or.inl heq
    · simp only [mapGet, if_neg heq] at h
      have := ih h
      simp only [mapKeys] at this
      exact Or.inr this

theorem mapGet_none_of_forall_lt {α : Type} {l : List (Bytes × α)} {k : Bytes}
    (h : ∀ x ∈ mapKeys l, k < x) : mapGet l k = none := by
  induction l with
  | nil => rfl
  | cons hd t ih =>
    obtain ⟨k', v'⟩ := hd
    have hk' : k < k' := h k' (by simp only [mapKeys, List.map_cons, List.mem_cons]; tauto)
    have hne : k ≠ k' := ne_of_lt hk'
    simp only [mapGet, if_neg hne]
    refine ih fun x hx => h x ?_
    simp only [mapKeys, List.map_cons, List.mem_cons]
    simp only [mapKeys] at hx
    tauto

/-! ### Memtable size invariant (C8) -/

theorem liveLen_le_msize {l : List (Bytes × ValueEntry)} {k : Bytes}
    {e : ValueEntry} (h : mapGet l k = some e) : liveLen e.value ≤ msize l := by
  induction l with
  | nil => simp [mapGet] at h
  | cons hd t ih =>
    obtain ⟨k', v'⟩ := hd
    rw [msize_cons]
    by_cases heq : k = k'
    · subst heq
      simp only [mapGet, eq_self_iff_true, if_true] at h
      injection h with h
      subst h
      omega
    · simp only [mapGet, if_neg heq] at h
      have := ih h
      omega

theorem msize_insert_found {l : List (Bytes × ValueEntry)} {k : Bytes}
    {old : ValueEntry} (hs : SortedKeys l) (h : mapGet l k = some old)
    (e : ValueEntry) :
    msize (mapInsert l k e) + liveLen old.value = msize l + liveLen e.value := by
  induction l with
  | nil => simp [mapGet] at h
  | cons hd t ih =>
    obtain ⟨k', v'⟩ := hd
    simp only [SortedKeys, mapKeys, List.map_cons, List.pairwise_cons] at hs
    obtain ⟨hall, htail⟩ := hs
    by_cases heq : k = k'
    · subst heq
      simp only [mapGet, eq_self_iff_true, if_true] at h
      injection h with h
      subst h
      have hlt : ¬ k < k := lt_irrefl k
      simp only [mapInsert, if_neg hlt, eq_self_iff_true, if_true, msize_cons]
      omega
    · simp only [mapGet, if_neg heq] at h
      have hkt : k ∈ mapKeys t := mapGet_some_mem_keys h
      have hgt : k' < k := hall k hkt
      have hlt : ¬ k < k' := not_lt_of_gt hgt
      simp only [mapInsert, if_neg hlt, if_neg heq, msize_cons]
      have := ih htail h
      omega

theorem msize_insert_new {l : List (Bytes × ValueEntry)} {k : Bytes}
    (h : mapGet l k = none) (e : ValueEntry) :
    msize (mapInsert l k e) = msize l + k.length + liveLen e.value := by
  induction l with
  | nil => simp [mapInsert, msize]
  | cons hd t ih =>
    obtain ⟨k', v'⟩ := hd
    by_cases heq : k = k'
    · simp [mapGet, heq] at h
    · simp only [mapGet, if_neg heq] at h
      by_cases hlt : k < k'
      · simp only [mapInsert, if_pos hlt, msize_cons]
        omega
      · simp only [mapInsert, if_neg hlt, if_neg heq, msize_cons]
        have := ih h
        omega

theorem memtableWF_new : MemtableWF Memtable.new := by
  constructor <;> simp [Memtable.new, SortedKeys, mapKeys, msize]

theorem memtableWF_put {m : Memtable} (h : MemtableWF m) (k v : Bytes) (s : Nat) :
    MemtableWF (m.put k v s) := by
  obtain ⟨hs, hsize⟩ := h
  unfold Memtable.put
  cases hget : mapGet m.map k with
  | none =>
    refine ⟨sortedKeys_insert hs k _, ?_⟩
    simp only
    rw [msize_insert_new hget]
    simp only [liveLen_some, hsize]
  | some old =>
    by_cases hstale : old.seq ≥ s
    · simpa [hstale] using ⟨hs, hsize⟩
    · simp only [hstale, if_neg, reduceIte]
      refine ⟨sortedKeys_insert hs k _, ?_⟩
      simp only
      have hle := liveLen_le_msize hget
      have heq := msize_insert_found hs hget ⟨s, some v⟩
      simp only [liveLen_some] at heq
      omega

theorem memtableWF_delete {m : Memtable} (h : MemtableWF m) (k : Bytes) (s : Nat) :
    MemtableWF (m.delete k s) := by
  obtain ⟨hs, hsize⟩ := h
  unfold Memtable.delete
  cases hget : mapGet m.map k with
  | none =>
    refine ⟨sortedKeys_insert hs k _, ?_⟩
    simp only
    rw [msize_insert_new hget]
    simp only [liveLen_none, hsize]
    omega
  | some old =>
    by_cases hstale : old.seq ≥ s
    · simpa [hstale] using ⟨hs, hsize⟩
    · simp only [hstale, if_neg, reduceIte]
      refine ⟨sortedKeys_insert hs k _, ?_⟩
      simp only
      have hle := liveLen_le_msize hget
      have heq := msize_insert_found hs hget ⟨s, none⟩
      simp only [liveLen_none] at heq
      omega

theorem memtableWF_applyMemOps (ops : List MemOp) {m : Memtable}
    (h : MemtableWF m) : MemtableWF (applyMemOps ops m) := by
  induction ops generalizing m with
  | nil => exact h
  | cons op t ih =>
    cases op with
    | put k v s => exact ih (memtableWF_put h k v s)
    | del k s => exact ih (memtableWF_delete h k s)
    | clear => exact ih (by constructor <;> simp [Memtable.clear, SortedKeys, mapKeys, msize])

/-- C8: for every memtable reachable from empty by put/delete/clear,
`approx_size` is the sum over entries of key length + live value length;
a stale mutation (seq ≤ the existing entry's seq) changes nothing; and
`clear` resets `approx_size` to zero. -/
theorem memtable_approx_size_correct :
    (∀ ops : List MemOp,
      (applyMemOps ops Memtable.new).approx_size =
        msize (applyMemOps ops Memtable.new).map) ∧
    (∀ (m : Memtable) (k v : Bytes) (s : Nat) (old : ValueEntry),
      mapGet m.map k = some old → s ≤ old.seq →
        m.put k v s = m ∧ m.delete k s = m) ∧
    (∀ m : Memtable, (m.clear).approx_size = 0) := by
  refine ⟨?_, ?_, ?_⟩
  · intro ops
    exact (memtableWF_applyMemOps ops memtableWF_new).2
  · intro m k v s old hget hstale
    constructor
    · unfold Memtable.put
      rw [hget]
      simp [ge_iff_le, hstale]
    · unfold Memtable.delete
      rw [hget]
      simp [ge_iff_le, hstale]
  · intro m
    rfl

/-- Witness for C8 at concrete inputs: a put, a stale delete, a clear. -/
theorem memtable_approx_size_correct_witness :
    ((applyMemOps [MemOp.put [1, 2] [3] 5] Memtable.new).approx_size =
      msize (applyMemOps [MemOp.put [1, 2] [3] 5] Memtable.new).map) ∧
    ((Memtable.new.put [1, 2] [3] 5).put [1, 2] [9, 9] 5 =
        Memtable.new.put [1, 2] [3] 5 ∧
      (Memtable.new.put [1, 2] [3] 5).delete [1, 2] 5 =
        Memtable.new.put [1, 2] [3] 5) ∧
    ((Memtable.new.put [1, 2] [3] 5).clear).approx_size = 0 := by
  refine ⟨memtable_approx_size_correct.1 [MemOp.put [1, 2] [3] 5], ?_, ?_⟩
  · exact memtable_approx_size_correct.2.1 (Memtable.new.put [1, 2] [3] 5)
      [1, 2] [9, 9] 5 ⟨5, some [3]⟩ (by decide) (by decide)
  · exact memtable_approx_size_correct.2.2 (Memtable.new.put [1, 2] [3] 5)

/-! ### C1 — the compaction tombstone filter (code bug)

compaction.rs line 83 skips a merged pair when
`entry.value.is_none() && mem_ref.contains_key(&key)`, i.e. it DROPS the
tombstones whose key IS in the memtable and KEEPS those whose key is not —
the exact inverse of the spec and of the comment directly above the line
("we must keep tombstones that shadow memtable data"). -/

/-- C1: evaluating the compaction filter on a merged stream holding a
tombstone for key `[1]` (present in the memtable) and a tombstone for key
`[2]` (absent from the memtable): the code keeps exactly the `[2]`
tombstone, while the claim requires keeping exactly the `[1]` tombstone. -/
theorem compaction_filter_inverts_spec :
    (([([1], ⟨2, none⟩), ([2], ⟨2, none⟩)] : List (Bytes × ValueEntry)).filter
        fun p => EngineSt.compactionKeep (Memtable.new.put [1] [7] 3) p.1 p.2) =
      [([2], ⟨2, none⟩)] := by decide

/-! ### C9 — manifest bootstrap order (code bug)

`Engine::new` (lib.rs 222–251) discovers `.sst` files, sorts them
descending (newest first), loads them into L0 in that order, and then
bootstraps the manifest by `add`ing each filename in that same newest-first
iteration order.  `Manifest::add` inserts at the FRONT of the level's
segment, so the resulting manifest lists L0 oldest-first — the reverse of
the in-memory list; a reopen would load L0 oldest-first. -/

/-- C9: bootstrapping from two discovered files in newest-first order
`["sst-b.sst", "sst-a.sst"]` produces a manifest whose `l0_filenames` is
the reverse, oldest-first order — not the newest-first order the claim
requires. -/
theorem manifest_bootstrap_reverses_l0_order :
    l0Filenames (bootstrapManifest ["sst-b.sst", "sst-a.sst"]) =
        ["sst-a.sst", "sst-b.sst"] ∧
      l0Filenames (bootstrapManifest ["sst-b.sst", "sst-a.sst"]) ≠
        ["sst-b.sst", "sst-a.sst"] := by decide

/-! ### C3 — sequence number discipline of `set` / `del` (corrected)

write.rs increments `self.seq` (step 2) BEFORE appending to the WAL
(step 3).  A WAL append failure or a failing flush therefore returns an
error while `self.seq` keeps the incremented value: "seq unchanged on any
failing set or del" is false for I/O failures.  Seq is unchanged on the
validation failures and on overflow, and advances by exactly one on
success. -/

theorem compact_seq (st : EngineSt) : st.compact.seq = st.seq := by
  unfold EngineSt.compact
  split
  · rfl
  · dsimp only
    split <;> rfl

theorem flush_seq (st : EngineSt) (env : Env) :
    ((st.flush env).2.seq = st.seq) := by
  unfold EngineSt.flush
  split
  · rfl
  · dsimp only
    split
    · exact compact_seq _
    · rfl

theorem flush_fst (st : EngineSt) (env : Env) :
    (st.flush env).1 =
      if env.flushIoFails then Except.error EngErr.ioFailure
      else Except.ok () := by
  unfold EngineSt.flush
  split <;> rename_i h
  · simp [h]
  · dsimp only
    split <;> simp [h]

/-- C3 counterexample: on an engine at seq 5 whose WAL append fails,
`set` returns an I/O error yet leaves seq at 6 — the claim requires the
sequence number to be unchanged by any failing `set`. -/
theorem set_wal_failure_advances_seq :
    (EngineSt.set ⟨Memtable.new, [], [], [], 5, 1000, 0⟩ ⟨true, false⟩
        [1] [2]).1 = Except.error EngErr.ioFailure ∧
      (EngineSt.set ⟨Memtable.new, [], [], [], 5, 1000, 0⟩ ⟨true, false⟩
        [1] [2]).2.seq = 6 := ⟨rfl, rfl⟩

/-- C3 (amended): a successful `set`/`del` advances seq by exactly one
(hence consecutive successful mutations have consecutive seqs); a
validation failure (invalid input) or seq overflow leaves seq unchanged;
a WAL append failure or flush I/O failure surfaces the error with seq
already advanced by one. -/
theorem set_del_seq_characterization :
    ∀ (st : EngineSt) (env : Env) (k v : Bytes),
      (match (st.set env k v).1 with
       | Except.ok _ => (st.set env k v).2.seq = st.seq + 1
       | Except.error EngErr.invalidInput => (st.set env k v).2.seq = st.seq
       | Except.error EngErr.seqOverflow => (st.set env k v).2.seq = st.seq
       | Except.error EngErr.ioFailure => (st.set env k v).2.seq = st.seq + 1) ∧
      (match (st.del env k).1 with
       | Except.ok _ => (st.del env k).2.seq = st.seq + 1
       | Except.error EngErr.invalidInput => (st.del env k).2.seq = st.seq
       | Except.error EngErr.seqOverflow => (st.del env k).2.seq = st.seq
       | Except.error EngErr.ioFailure => (st.del env k).2.seq = st.seq + 1) := by
  intro st env k v
  constructor
  · simp only [EngineSt.set]
    split_ifs with h1 h2 h3 h4 h5 h6
    · rfl
    · rfl
    · rfl
    · rfl
    · rfl
    · rw [flush_seq, flush_fst]
      by_cases hio : env.flushIoFails <;> simp [hio]
    · rfl
  · simp only [EngineSt.del]
    split_ifs with h1 h2 h3 h4 h5
    · rfl
    · rfl
    · rfl
    · rfl
    · rw [flush_seq, flush_fst]
      by_cases hio : env.flushIoFails <;> simp [hio]
    · rfl

/-! ### C2 — `Engine::get` returns the highest-seq entry (confirmed under
the probe-order invariant)

read.rs returns the FIRST hit in probe order (memtable, L0 newest-first,
L1 newest-first).  That equals the highest-seq entry exactly when fresher
sources hold strictly larger seqs per key — the invariant the engine
maintains (memtable entries postdate all SSTables; L0/L1 lists are
newest-first). -/

theorem probeSSTables_append (a b : List Src) (k : Bytes) :
    EngineSt.probeSSTables (a ++ b) k =
      match EngineSt.probeSSTables a k with
      | some e => some e
      | none => EngineSt.probeSSTables b k := by
  induction a with
  | nil => simp [EngineSt.probeSSTables]
  | cons s t ih =>
    simp only [List.cons_append, EngineSt.probeSSTables]
    cases mapGet s k <;> simp [ih]

theorem probeSSTables_eq_head (srcs : List Src) (k : Bytes) :
    EngineSt.probeSSTables srcs k =
      (srcs.filterMap fun s => mapGet s k).head? := by
  induction srcs with
  | nil => rfl
  | cons s t ih =>
    simp only [EngineSt.probeSSTables, List.filterMap_cons]
    cases mapGet s k <;> simp [ih]

theorem engineGet_eq_probe (st : EngineSt) (k : Bytes) :
    st.get k = (EngineSt.probeSSTables st.sources k).bind
      fun e => e.value.map fun v => (e.seq, v) := by
  unfold EngineSt.get EngineSt.sources
  rw [EngineSt.probeSSTables]
  show _ = (match mapGet st.mem.iter k with
    | some e => some e
    | none => EngineSt.probeSSTables (st.l0_sstables ++ st.l1_sstables) k).bind _
  rw [probeSSTables_append]
  have hmem : st.mem.get_entry k = mapGet st.mem.iter k := rfl
  rw [hmem]
  cases mapGet st.mem.iter k with
  | some e => simp
  | none =>
    cases h0 : EngineSt.probeSSTables st.l0_sstables k with
    | some e => simp [h0]
    | none =>
      simp only [h0]
      cases h1 : EngineSt.probeSSTables st.l1_sstables k <;> simp [h1]

theorem foldPick_stay (t : List ValueEntry) (b : ValueEntry)
    (h : ∀ x ∈ t, x.seq ≤ b.seq) :
    t.foldl
      (fun acc e =>
        match acc with
        | none => some e
        | some b => if e.seq > b.seq then some e else some b)
      (some b) = some b := by
  induction t with
  | nil => rfl
  | cons x t ih =>
    have hx : x.seq ≤ b.seq := h x (List.mem_cons_self x t)
    have hnot : ¬ x.seq > b.seq := not_lt_of_ge hx
    simp only [List.foldl_cons, hnot, if_neg, reduceIte]
    exact ih fun y hy => h y (List.mem_cons_of_mem x hy)

theorem foldPick_head_of_decreasing (es : List ValueEntry)
    (h : es.Pairwise fun e₁ e₂ => e₂.seq < e₁.seq) :
    es.foldl
      (fun acc e =>
        match acc with
        | none => some e
        | some b => if e.seq > b.seq then some e else some b)
      none = es.head? := by
  cases es with
  | nil => rfl
  | cons e t =>
    simp only [List.foldl_cons, List.head?_cons]
    exact foldPick_stay t e fun x hx =>
      le_of_lt ((List.pairwise_cons.mp h).1 x hx)

/-- C2: on a probe-ordered engine state, `get` returns the live entry with
the highest seq across memtable ∪ L0 ∪ L1 — absence when that entry is a
tombstone or no entry exists. -/
theorem get_returns_highest_seq (st : EngineSt) (h : st.ProbeOrdered)
    (k : Bytes) :
    st.get k = (st.highestEntry k).bind fun e => e.value.map fun v => (e.seq, v) := by
  rw [engineGet_eq_probe, probeSSTables_eq_head]
  unfold EngineSt.highestEntry
  have hpw : (st.sources.filterMap fun s => mapGet s k).Pairwise
      fun e₁ e₂ => e₂.seq < e₁.seq := by
    refine h.filterMap (fun s => mapGet s k) ?_
    intro s t hst e₁ he₁ e₂ he₂
    simp only [Option.mem_def] at he₁ he₂
    exact hst k e₁ e₂ he₁ he₂
  rw [foldPick_head_of_decreasing _ hpw]

/-- Witness for C2: a state whose memtable holds `[1] ↦ (3, some [9])` over
an L0 reader holding `[1] ↦ (2, some [8])` is probe-ordered, and `get [1]`
agrees with the highest-seq resolution. -/
theorem get_returns_highest_seq_witness :
    (EngineSt.ProbeOrdered
      ⟨⟨[([1], ⟨3, some [9]⟩)], 4⟩, [[([1], ⟨2, some [8]⟩)]], [], [], 3, 1000, 0⟩) ∧
    (EngineSt.get
      ⟨⟨[([1], ⟨3, some [9]⟩)], 4⟩, [[([1], ⟨2, some [8]⟩)]], [], [], 3, 1000, 0⟩ [1] =
      (EngineSt.highestEntry
        ⟨⟨[([1], ⟨3, some [9]⟩)], 4⟩, [[([1], ⟨2, some [8]⟩)]], [], [], 3, 1000, 0⟩ [1]).bind
        fun e => e.value.map fun v => (e.seq, v)) := by
  have hord : EngineSt.ProbeOrdered
      ⟨⟨[([1], ⟨3, some [9]⟩)], 4⟩, [[([1], ⟨2, some [8]⟩)]], [], [], 3, 1000, 0⟩ := by
    unfold EngineSt.ProbeOrdered EngineSt.sources
    refine List.pairwise_cons.mpr ⟨?_, ?_⟩
    · intro s hs k e₁ e₂ h1 h2
      simp only [List.append_nil, List.mem_singleton] at hs
      subst hs
      by_cases hk : k = [1]
      · subst hk
        simp only [Memtable.iter, mapGet, eq_self_iff_true, if_true] at h1
        simp only [mapGet, eq_self_iff_true, if_true] at h2
        injection h1 with h1
        injection h2 with h2
        subst h1; subst h2
        decide
      · simp only [Memtable.iter, mapGet, if_neg hk] at h1
        exact absurd h1 (by simp)
    · simp
  exact ⟨hord, get_returns_highest_seq _ hord [1]⟩

/-! ### C7 — `Engine::scan` ordering, bounds, tombstones, seq resolution -/

theorem mapGet_none_iff {α : Type} (l : List (Bytes × α)) (k : Bytes) :
    mapGet l k = none ↔ k ∉ mapKeys l := by
  induction l with
  | nil => simp [mapGet, mapKeys]
  | cons hd t ih =>
    obtain ⟨k', v'⟩ := hd
    simp only [mapGet, mapKeys, List.map_cons, List.mem_cons]
    by_cases heq : k = k'
    · simp [heq]
    · simp only [if_neg heq, ih, mapKeys]
      tauto

theorem mapGet_of_mem_sorted {l : List (Bytes × ValueEntry)} {k : Bytes}
    {e : ValueEntry} (hs : SortedKeys l) (hmem : (k, e) ∈ l) :
    mapGet l k = some e := by
  induction l with
  | nil => simp at hmem
  | cons hd t ih =>
    obtain ⟨k', v'⟩ := hd
    simp only [SortedKeys, mapKeys, List.map_cons, List.pairwise_cons] at hs
    obtain ⟨hall, htail⟩ := hs
    simp only [List.mem_cons] at hmem
    rcases hmem with hmem | hmem
    · injection hmem with h1 h2
      subst h1; subst h2
      simp [mapGet]
    · have hkt : k ∈ mapKeys t := by
        simp only [mapKeys, List.mem_map]
        exact ⟨(k, e), hmem, rfl⟩
      have hne : k ≠ k' := by
        intro hkk
        subst hkk
        exact absurd (hall k hkt) (lt_irrefl k)
      simp only [mapGet, if_neg hne]
      exact ih htail hmem

theorem mergeEntry_get_self (acc : List (Bytes × ValueEntry)) (k : Bytes)
    (e : ValueEntry) :
    mapGet (EngineSt.mergeEntry acc k e) k =
      match mapGet acc k with
      | none => some e
      | some b => if b.seq ≥ e.seq then some b else some e := by
  unfold EngineSt.mergeEntry
  cases h : mapGet acc k with
  | none => simp [mapGet_insert_self]
  | some b =>
    by_cases hle : b.seq ≥ e.seq
    · simp [hle, h]
    · simp [hle, mapGet_insert_self]

theorem mergeEntry_get_ne (acc : List (Bytes × ValueEntry)) (k k₂ : Bytes)
    (e : ValueEntry) (hne : k₂ ≠ k) :
    mapGet (EngineSt.mergeEntry acc k e) k₂ = mapGet acc k₂ := by
  unfold EngineSt.mergeEntry
  cases mapGet acc k with
  | none => exact mapGet_insert_ne acc k k₂ e hne
  | some b =>
    by_cases hle : b.seq ≥ e.seq
    · simp [hle]
    · simp only [hle, if_neg, reduceIte]
      exact mapGet_insert_ne acc k k₂ e hne

theorem scanFold_get (start stop : Bytes) (ps : List (Bytes × ValueEntry))
    (acc : List (Bytes × ValueEntry)) (k : Bytes) :
    mapGet (ps.foldl (EngineSt.scanStep start stop) acc) k =
      if EngineSt.rangeKeep start stop k then pickBest (mapGet acc k) (valsAt ps k)
      else mapGet acc k := by
  induction ps generalizing acc with
  | nil =>
    simp [valsAt, pickBest]
  | cons p t ih =>
    simp only [List.foldl_cons]
    by_cases hpk : p.1 = k
    · by_cases hr : EngineSt.rangeKeep start stop k
      · have hstep : EngineSt.scanStep start stop acc p =
            EngineSt.mergeEntry acc p.1 p.2 := by
          unfold EngineSt.scanStep
          rw [hpk, if_pos hr]
        have hv : valsAt (p :: t) k = p.2 :: valsAt t k := by
          simp [valsAt, hpk]
        have hget : mapGet (EngineSt.mergeEntry acc p.1 p.2) k =
            match mapGet acc k with
            | none => some p.2
            | some b => if b.seq ≥ p.2.seq then some b else some p.2 := by
          rw [hpk]
          exact mergeEntry_get_self acc k p.2
        rw [hstep, ih, hv, hget]
        simp only [hr, if_true]
        simp only [pickBest, List.foldl_cons]
      · have hstep : EngineSt.scanStep start stop acc p = acc := by
          unfold EngineSt.scanStep
          rw [hpk, if_neg hr]
        rw [hstep, ih]
        simp [hr]
    · have hstep : mapGet (EngineSt.scanStep start stop acc p) k = mapGet acc k := by
        unfold EngineSt.scanStep
        split
        · exact mergeEntry_get_ne acc p.1 k p.2 fun h => hpk h.symm
        · rfl
      have hv : valsAt (p :: t) k = valsAt t k := by
        simp [valsAt, hpk]
      rw [ih, hstep, hv]

theorem pickBest_spec (es : List ValueEntry) (o : Option ValueEntry)
    (e : ValueEntry) (h : pickBest o es = some e) :
    (e ∈ es ∨ o = some e) ∧ (∀ x ∈ es, x.seq ≤ e.seq) ∧
      (∀ b, o = some b → b.seq ≤ e.seq) := by
  induction es generalizing o with
  | nil =>
    refine ⟨Or.inr h, ?_, ?_⟩
    · intro x hx; simp at hx
    · intro b hb
      rw [hb] at h
      injection h with h
      subst h
      exact le_refl _
  | cons x t ih =>
    cases o with
    | none =>
      have h' : pickBest (some x) t = some e := by
        simpa only [pickBest, List.foldl_cons] using h
      obtain ⟨hin, hall, hb⟩ := ih (some x) h'
      refine ⟨?_, ?_, ?_⟩
      · rcases hin with hin | hin
        · exact Or.inl (List.mem_cons_of_mem x hin)
        · injection hin with hin
          subst hin
          exact Or.inl (List.mem_cons_self x t)
      · intro y hy
        simp only [List.mem_cons] at hy
        rcases hy with hy | hy
        · rw [hy]
          exact hb x rfl
        · exact hall y hy
      · intro b hbb; cases hbb
    | some b0 =>
      simp only [pickBest, List.foldl_cons] at h
      by_cases hge : b0.seq ≥ x.seq
      · rw [if_pos hge] at h
        obtain ⟨hin, hall, hb⟩ := ih (some b0) h
        refine ⟨?_, ?_, ?_⟩
        · rcases hin with hin | hin
          · exact Or.inl (List.mem_cons_of_mem x hin)
          · exact Or.inr hin
        · intro y hy
          simp only [List.mem_cons] at hy
          rcases hy with hy | hy
          · subst hy
            exact le_trans hge (hb b0 rfl)
          · exact hall y hy
        · intro b hbb
          injection hbb with hbb
          rw [← hbb]
          exact hb b0 rfl
      · rw [if_neg hge] at h
        obtain ⟨hin, hall, hb⟩ := ih (some x) h
        have hx : x.seq ≤ e.seq := hb x rfl
        refine ⟨?_, ?_, ?_⟩
        · rcases hin with hin | hin
          · exact Or.inl (List.mem_cons_of_mem x hin)
          · injection hin with hin
            subst hin
            exact Or.inl (List.mem_cons_self x t)
        · intro y hy
          simp only [List.mem_cons] at hy
          rcases hy with hy | hy
          · subst hy; exact hx
          · exact hall y hy
        · intro b hbb
          injection hbb with hbb
          subst hbb
          exact le_trans (le_of_not_ge hge) hx
theorem sortedKeys_mergeEntry {acc : List (Bytes × ValueEntry)}
    (h : SortedKeys acc) (k : Bytes) (e : ValueEntry) :
    SortedKeys (EngineSt.mergeEntry acc k e) := by
  unfold EngineSt.mergeEntry
  cases mapGet acc k with
  | none => exact sortedKeys_insert h k e
  | some b =>
    by_cases hle : b.seq ≥ e.seq
    · simpa [hle] using h
    · simp only [hle, if_neg, reduceIte]
      exact sortedKeys_insert h k e

theorem sortedKeys_scanFold (start stop : Bytes) (ps : List (Bytes × ValueEntry))
    {acc : List (Bytes × ValueEntry)} (h : SortedKeys acc) :
    SortedKeys (ps.foldl (EngineSt.scanStep start stop) acc) := by
  induction ps generalizing acc with
  | nil => exact h
  | cons p t ih =>
    simp only [List.foldl_cons]
    refine ih ?_
    unfold EngineSt.scanStep
    split
    · exact sortedKeys_mergeEntry h p.1 p.2
    · exact h

theorem valsAt_nil_of_not_mem {s : List (Bytes × ValueEntry)} {k : Bytes}
    (h : k ∉ mapKeys s) : valsAt s k = [] := by
  induction s with
  | nil => rfl
  | cons p t ih =>
    simp only [mapKeys, List.map_cons, List.mem_cons, not_or] at h
    obtain ⟨h1, h2⟩ := h
    simp only [valsAt, List.filterMap_cons]
    rw [if_neg fun hp => h1 hp.symm]
    exact ih (by simpa [mapKeys] using h2)

theorem valsAt_eq_of_sorted {s : List (Bytes × ValueEntry)} (hs : SortedKeys s)
    (k : Bytes) : valsAt s k = (mapGet s k).toList := by
  induction s with
  | nil => rfl
  | cons p t ih =>
    obtain ⟨k', e'⟩ := p
    simp only [SortedKeys, mapKeys, List.map_cons, List.pairwise_cons] at hs
    obtain ⟨hall, htail⟩ := hs
    by_cases heq : k' = k
    · subst heq
      have hnot : k' ∉ mapKeys t := fun hmem => absurd (hall k' hmem) (lt_irrefl k')
      simp only [valsAt, List.filterMap_cons, if_pos rfl, mapGet,
        eq_self_iff_true, if_true]
      have := valsAt_nil_of_not_mem hnot
      simp only [valsAt] at this
      rw [this]
      rfl
    · have hne : k ≠ k' := fun h => heq h.symm
      simp only [valsAt, List.filterMap_cons, if_neg heq, mapGet, if_neg hne]
      exact ih htail

theorem valsAt_append (a b : List (Bytes × ValueEntry)) (k : Bytes) :
    valsAt (a ++ b) k = valsAt a k ++ valsAt b k := by
  simp [valsAt, List.filterMap_append]

theorem valsAt_flatten (srcs : List Src) (k : Bytes) :
    valsAt srcs.flatten k = (srcs.map fun s => valsAt s k).flatten := by
  induction srcs with
  | nil => rfl
  | cons s t ih =>
    simp only [List.flatten_cons, valsAt_append, List.map_cons, ih]

theorem rangeKeep_true_iff (start stop k : Bytes) :
    EngineSt.rangeKeep start stop k = true ↔
      ((start = [] ∨ start ≤ k) ∧ (stop = [] ∨ k < stop)) := by
  unfold EngineSt.rangeKeep
  by_cases h1 : start = [] <;> by_cases h2 : stop = [] <;>
    simp [h1, h2, List.isEmpty_iff, not_lt, not_le]

theorem scanResult_keys_sublist (l : List (Bytes × ValueEntry)) :
    ((l.filterMap fun p => p.2.value.map fun v => (p.1, v)).map Prod.fst).Sublist
      (l.map Prod.fst) := by
  induction l with
  | nil => simp
  | cons p t ih =>
    cases hv : p.2.value with
    | none =>
      simp only [List.filterMap_cons, hv, Option.map_none', List.map_cons]
      exact ih.cons p.1
    | some v =>
      simp only [List.filterMap_cons, hv, Option.map_some', List.map_cons]
      exact ih.cons₂ p.1

/-- C7: `scan(start, stop)` is strictly ascending by key; every returned key
is within the half-open range (empty bound = unbounded); and each returned
pair carries the value of a live entry whose seq is maximal among all
sources containing the key (so no tombstoned key appears). -/
theorem scan_correct (st : EngineSt) (start stop : Bytes)
    (hs : ∀ s ∈ st.sources, SortedKeys s) :
    ((st.scan start stop).map Prod.fst).Pairwise (· < ·) ∧
    (∀ p ∈ st.scan start stop,
      (start = [] ∨ start ≤ p.1) ∧ (stop = [] ∨ p.1 < stop)) ∧
    (∀ p ∈ st.scan start stop, ∃ e : ValueEntry,
      e.value = some p.2 ∧
      (∃ s ∈ st.sources, mapGet s p.1 = some e) ∧
      (∀ s ∈ st.sources, ∀ e', mapGet s p.1 = some e' → e'.seq ≤ e.seq)) := by
  have hscan : st.scan start stop =
      (st.sources.foldl (EngineSt.scanFoldSource start stop) []).filterMap
        (fun p => p.2.value.map fun v => (p.1, v)) := rfl
  have hfold : st.sources.foldl (EngineSt.scanFoldSource start stop) [] =
      (st.sources.flatten).foldl (EngineSt.scanStep start stop) [] := by
    rw [List.foldl_flatten]
    rfl
  set merged := st.sources.foldl (EngineSt.scanFoldSource start stop) [] with hm
  have hsorted : SortedKeys merged := by
    rw [hfold]
    exact sortedKeys_scanFold start stop _ (by simp [SortedKeys, mapKeys])
  have hget : ∀ k, mapGet merged k =
      if EngineSt.rangeKeep start stop k then
        pickBest none (valsAt st.sources.flatten k)
      else none := by
    intro k
    rw [hfold, scanFold_get]
    rfl
  have hmem_range : ∀ p, p ∈ st.scan start stop →
      ∃ e : ValueEntry, (p.1, e) ∈ merged ∧ e.value = some p.2 := by
    intro p hp
    rw [hscan] at hp
    obtain ⟨q, hq, hfq⟩ := List.mem_filterMap.mp hp
    obtain ⟨v, hv, hqv⟩ := Option.map_eq_some'.mp hfq
    obtain ⟨q1, q2⟩ := q
    simp only at hv hqv
    subst hqv
    exact ⟨q2, hq, by rw [hv]⟩
  have hkey_range : ∀ k, k ∈ mapKeys merged →
      EngineSt.rangeKeep start stop k = true := by
    intro k hk
    by_contra hr
    have := hget k
    rw [if_neg fun hh => hr hh] at this
    exact absurd ((mapGet_none_iff merged k).mp this) (fun h => h hk)
  refine ⟨?_, ?_, ?_⟩
  · rw [hscan]
    exact List.Pairwise.sublist (scanResult_keys_sublist merged) hsorted
  · intro p hp
    obtain ⟨e, hmem, _⟩ := hmem_range p hp
    have hkr : EngineSt.rangeKeep start stop p.1 = true :=
      hkey_range p.1 (by
        simp only [mapKeys, List.mem_map]
        exact ⟨(p.1, e), hmem, rfl⟩)
    exact (rangeKeep_true_iff start stop p.1).mp hkr
  · intro p hp
    obtain ⟨e, hmem, hval⟩ := hmem_range p hp
    have hkmem : p.1 ∈ mapKeys merged := by
      simp only [mapKeys, List.mem_map]
      exact ⟨(p.1, e), hmem, rfl⟩
    have hkr := hkey_range p.1 hkmem
    have hgete : mapGet merged p.1 = some e := mapGet_of_mem_sorted hsorted hmem
    rw [hget p.1, if_pos hkr] at hgete
    obtain ⟨hin, hall, _⟩ := pickBest_spec (valsAt st.sources.flatten p.1) none e hgete
    have hin' : e ∈ valsAt st.sources.flatten p.1 := by
      rcases hin with hin | hin
      · exact hin
      · cases hin
    refine ⟨e, hval, ?_, ?_⟩
    · rw [valsAt_flatten] at hin'
      obtain ⟨vs, hvs, hevs⟩ := List.mem_flatten.mp hin'
      obtain ⟨s, hsmem, hsv⟩ := List.mem_map.mp hvs
      refine ⟨s, hsmem, ?_⟩
      rw [← hsv] at hevs
      rw [valsAt_eq_of_sorted (hs s hsmem)] at hevs
      cases hms : mapGet s p.1 with
      | none => rw [hms] at hevs; cases hevs
      | some e0 =>
        rw [hms] at hevs
        simp only [Option.toList_some, List.mem_singleton] at hevs
        rw [hevs]
    · intro s hsmem e' hse'
      refine hall e' ?_
      rw [valsAt_flatten]
      refine List.mem_flatten.mpr ⟨valsAt s p.1, List.mem_map_of_mem _ hsmem, ?_⟩
      rw [valsAt_eq_of_sorted (hs s hsmem), hse']
      simp

/-- Witness for C7: an engine whose memtable holds a live `[1]` and whose
single L0 reader holds a tombstoned `[2]`; the full-range scan's keys are
strictly ascending. -/
theorem scan_correct_witness :
    (∀ s ∈ EngineSt.sources
        ⟨⟨[([1], ⟨1, some [5]⟩)], 6⟩, [[([2], ⟨2, none⟩)]], [], [], 2, 1000, 0⟩,
      SortedKeys s) ∧
    ((EngineSt.scan
        ⟨⟨[([1], ⟨1, some [5]⟩)], 6⟩, [[([2], ⟨2, none⟩)]], [], [], 2, 1000, 0⟩
        [] []).map Prod.fst).Pairwise (· < ·) := by
  have hsrc : ∀ s ∈ EngineSt.sources
      ⟨⟨[([1], ⟨1, some [5]⟩)], 6⟩, [[([2], ⟨2, none⟩)]], [], [], 2, 1000, 0⟩,
      SortedKeys s := by
    intro s hsmem
    simp only [EngineSt.sources, Memtable.iter, List.append_nil, List.mem_cons,
      List.mem_singleton, List.not_mem_nil, or_false] at hsmem
    rcases hsmem with h | h <;> (subst h; simp [SortedKeys, mapKeys])
  exact ⟨hsrc, (scan_correct _ [] [] hsrc).1⟩

/-! ### C10 — deleting an absent key

`Engine::del` validates the key, advances seq, logs a tombstone and installs
it in the memtable; absence of the key is never consulted, so deleting an
absent key succeeds.  The subsequent `get` hits the tombstone in the
memtable and returns absence. -/

/-- C10: on an engine with no entry for `key` anywhere, a valid `key`, no
injected I/O failure, no seq overflow, and no flush triggered by the
insert, `del` succeeds, advances seq by one, installs a tombstone for
`key` in the memtable, and a subsequent `get key` returns absence. -/
theorem del_absent_key (st : EngineSt) (key : Bytes)
    (hk : key ≠ []) (hklen : key.length ≤ MAX_KEY_SIZE)
    (hseq : st.seq + 1 ≠ U64_LIMIT)
    (habsent : ∀ s ∈ st.sources, mapGet s key = none)
    (hnoflush : st.mem.approx_size + key.length < st.flush_threshold) :
    (st.del ⟨false, false⟩ key).1 = Except.ok () ∧
    (st.del ⟨false, false⟩ key).2.seq = st.seq + 1 ∧
    (st.del ⟨false, false⟩ key).2.mem.get_entry key = some ⟨st.seq + 1, none⟩ ∧
    (st.del ⟨false, false⟩ key).2.get key = none := by
  have hkE : key.isEmpty = false := by
    cases key with
    | nil => exact absurd rfl hk
    | cons a t => rfl
  have hmemget : mapGet st.mem.map key = none :=
    habsent st.mem.iter (List.mem_cons_self _ _)
  have hdel : st.mem.delete key (st.seq + 1) =
      ⟨mapInsert st.mem.map key ⟨st.seq + 1, none⟩,
        st.mem.approx_size + key.length⟩ := by
    unfold Memtable.delete
    rw [hmemget]
  have heq : st.del ⟨false, false⟩ key =
      (Except.ok (), { st with
        seq := st.seq + 1,
        wal := st.wal ++ [WalRecord.del (st.seq + 1) key],
        mem := st.mem.delete key (st.seq + 1) }) := by
    unfold EngineSt.del
    rw [if_neg (by simp [hkE]), if_neg (by omega), if_neg hseq]
    dsimp only
    rw [if_neg (by simp), if_neg (by rw [hdel]; dsimp only; omega)]
  refine ⟨by rw [heq], by rw [heq], ?_, ?_⟩
  · rw [heq]
    show (st.mem.delete key (st.seq + 1)).get_entry key = _
    rw [hdel]
    unfold Memtable.get_entry
    exact mapGet_insert_self _ _ _
  · rw [heq]
    show EngineSt.get _ key = none
    unfold EngineSt.get
    have : ({ st with
        seq := st.seq + 1,
        wal := st.wal ++ [WalRecord.del (st.seq + 1) key],
        mem := st.mem.delete key (st.seq + 1) } : EngineSt).mem.get_entry key =
        some ⟨st.seq + 1, none⟩ := by
      show (st.mem.delete key (st.seq + 1)).get_entry key = _
      rw [hdel]
      unfold Memtable.get_entry
      exact mapGet_insert_self _ _ _
    rw [this]
    rfl

/-- Witness for C10 at a concrete engine: seq 5, empty sources, key `[7]`. -/
theorem del_absent_key_witness :
    ((EngineSt.del ⟨⟨[], 0⟩, [], [], [], 5, 100, 0⟩ ⟨false, false⟩ [7]).1 =
        Except.ok () ∧
      (EngineSt.del ⟨⟨[], 0⟩, [], [], [], 5, 100, 0⟩ ⟨false, false⟩ [7]).2.seq = 6 ∧
      (EngineSt.del ⟨⟨[], 0⟩, [], [], [], 5, 100, 0⟩ ⟨false, false⟩ [7]).2.mem.get_entry
          [7] = some ⟨6, none⟩ ∧
      (EngineSt.del ⟨⟨[], 0⟩, [], [], [], 5, 100, 0⟩ ⟨false, false⟩ [7]).2.get [7] =
        none) :=
  del_absent_key ⟨⟨[], 0⟩, [], [], [], 5, 100, 0⟩ [7] (by decide) (by decide)
    (by decide)
    (by
      intro s hsmem
      simp only [EngineSt.sources, Memtable.iter, List.append_nil, List.mem_cons,
        List.not_mem_nil, or_false] at hsmem
      subst hsmem
      rfl)
    (by decide)

/-! ### Little-endian and list primitives -/

theorem take_len_append {α : Type} (l₁ l₂ : List α) :
    (l₁ ++ l₂).take l₁.length = l₁ := by
  induction l₁ with
  | nil => rfl
  | cons a t ih => simp [ih]

theorem drop_len_append {α : Type} (l₁ l₂ : List α) :
    (l₁ ++ l₂).drop l₁.length = l₂ := by
  induction l₁ with
  | nil => rfl
  | cons a t ih => simp [ih]

theorem u32le_length (n : Nat) : (u32le n).length = 4 := rfl

theorem u64le_length (n : Nat) : (u64le n).length = 8 := rfl

theorem readU32_u32le (n : Nat) (h : n < 2 ^ 32) (rest : Bytes) :
    readU32? (u32le n ++ rest) = some (n, rest) := by
  simp only [u32le, List.cons_append, List.nil_append, readU32?]
  have hv : n % 256 + 256 * (n / 256 % 256) + 256 ^ 2 * (n / 256 ^ 2 % 256) +
      256 ^ 3 * (n / 256 ^ 3 % 256) = n := by omega
  rw [hv]

theorem readU64_u64le (n : Nat) (h : n < 2 ^ 64) (rest : Bytes) :
    readU64? (u64le n ++ rest) = some (n, rest) := by
  simp only [u64le, List.cons_append, List.nil_append, readU64?]
  have hv : n % 256 + 256 * (n / 256 % 256) + 256 ^ 2 * (n / 256 ^ 2 % 256) +
      256 ^ 3 * (n / 256 ^ 3 % 256) + 256 ^ 4 * (n / 256 ^ 4 % 256) +
      256 ^ 5 * (n / 256 ^ 5 % 256) + 256 ^ 6 * (n / 256 ^ 6 % 256) +
      256 ^ 7 * (n / 256 ^ 7 % 256) = n := by omega
  rw [hv]

theorem readU32_none_of_short {l : Bytes} (h : l.length < 4) :
    readU32? l = none := by
  match l with
  | [] => rfl
  | [_] => rfl
  | [_, _] => rfl
  | [_, _, _] => rfl
  | _ :: _ :: _ :: _ :: _ =>
    simp only [List.length_cons] at h
    omega

theorem readU8_cons (b : Nat) (rest : Bytes) : readU8? (b :: rest) = some (b, rest) := rfl

theorem readU32_length {l : Bytes} {n : Nat} {rest : Bytes}
    (h : readU32? l = some (n, rest)) : l.length = rest.length + 4 := by
  match l with
  | [] => simp [readU32?] at h
  | [_] => simp [readU32?] at h
  | [_, _] => simp [readU32?] at h
  | [_, _, _] => simp [readU32?] at h
  | b0 :: b1 :: b2 :: b3 :: r =>
    simp only [readU32?, Option.some.injEq, Prod.mk.injEq] at h
    obtain ⟨h1, h2⟩ := h
    rw [← h2]
    simp only [List.length_cons]

/-! ### C4 — WAL replay lemmas -/

theorem encodeWalBody_length (r : WalRecord) :
    (encodeWalBody r).length =
      match r with
      | WalRecord.put _ key value => 17 + key.length + value.length
      | WalRecord.del _ key => 13 + key.length := by
  cases r with
  | put seq key value =>
    simp only [encodeWalBody, List.length_append, u64le_length, u32le_length,
      List.length_cons, List.length_nil]
    omega
  | del seq key =>
    simp only [encodeWalBody, List.length_append, u64le_length, u32le_length,
      List.length_cons, List.length_nil]

theorem parseWalBody_encode (r : WalRecord) (hwf : WalRecordWF r) :
    parseWalBody (encodeWalBody r) = Except.ok r := by
  have hmax : WAL_MAX_RECORD_SIZE = 67108864 := rfl
  cases r with
  | put seq key value =>
    obtain ⟨hseq, hsize⟩ := hwf
    have hk32 : key.length < 2 ^ 32 := by omega
    have hv32 : value.length < 2 ^ 32 := by omega
    simp only [parseWalBody, encodeWalBody, List.append_assoc,
      List.singleton_append, List.cons_append, List.nil_append, List.length_nil,
      List.length_append, u64le_length,
      u32le_length, List.length_cons, readU64_u64le seq hseq, readU8_cons,
      readU32_u32le key.length hk32, readU32_u32le value.length hv32,
      take_len_append, drop_len_append, List.take_length]
    split_ifs <;> first | rfl | omega
  | del seq key =>
    obtain ⟨hseq, hsize⟩ := hwf
    have hk32 : key.length < 2 ^ 32 := by omega
    simp only [parseWalBody, encodeWalBody, List.append_assoc,
      List.singleton_append, List.cons_append, List.nil_append, List.length_nil,
      List.length_append, u64le_length,
      u32le_length, List.length_cons, readU64_u64le seq hseq, readU8_cons,
      readU32_u32le key.length hk32, take_len_append, drop_len_append,
      List.take_length]
    split_ifs <;> first | rfl | omega

theorem crc32Round_lt {c : Nat} (h : c < 2 ^ 32) : crc32Round c < 2 ^ 32 := by
  unfold crc32Round
  split
  · exact Nat.xor_lt_two_pow (by omega) (by norm_num)
  · omega

theorem crc32Byte_lt {c : Nat} (h : c < 2 ^ 32) (b : Nat) :
    crc32Byte c b < 2 ^ 32 := by
  unfold crc32Byte
  simp only [Function.comp_apply]
  have h0 : c ^^^ b % 256 < 2 ^ 32 :=
    Nat.xor_lt_two_pow h (lt_trans (Nat.mod_lt b (by norm_num)) (by norm_num))
  exact crc32Round_lt (crc32Round_lt (crc32Round_lt (crc32Round_lt
    (crc32Round_lt (crc32Round_lt (crc32Round_lt (crc32Round_lt h0)))))))

theorem crc32_lt (data : Bytes) : crc32 data < 2 ^ 32 := by
  unfold crc32
  refine Nat.xor_lt_two_pow ?_ (by norm_num)
  have : ∀ (l : Bytes) (c : Nat), c < 2 ^ 32 → l.foldl crc32Byte c < 2 ^ 32 := by
    intro l
    induction l with
    | nil => intro c hc; exact hc
    | cons b t ih =>
      intro c hc
      exact ih _ (crc32Byte_lt hc b)
  exact this data 0xFFFFFFFF (by norm_num)

theorem replayGo_nil (f : Nat) : replayGo f [] = Except.ok [] := by
  cases f <;> rfl

theorem replayGo_eof {bytes : Bytes} (h : readU32? bytes = none) (f : Nat) :
    replayGo f bytes = Except.ok [] := by
  cases f with
  | zero => rfl
  | succ g => simp [replayGo, h]

theorem encodeWalBody_facts (r : WalRecord) (hwf : WalRecordWF r) :
    13 ≤ (encodeWalBody r).length ∧
      (encodeWalBody r).length + 4 ≤ WAL_MAX_RECORD_SIZE := by
  have hmax : WAL_MAX_RECORD_SIZE = 67108864 := rfl
  cases r with
  | put seq key value =>
    obtain ⟨_, h⟩ := hwf
    rw [encodeWalBody_length]
    dsimp only
    constructor <;> omega
  | del seq key =>
    obtain ⟨_, h⟩ := hwf
    rw [encodeWalBody_length]
    dsimp only
    constructor <;> omega

theorem replayGo_cons (f : Nat) (r : WalRecord) (rest : Bytes)
    (hwf : WalRecordWF r) :
    replayGo (f + 1) (encodeWalFrame r ++ rest) =
      (replayGo f rest).map fun rs => r :: rs := by
  have hmax : WAL_MAX_RECORD_SIZE = 67108864 := rfl
  obtain ⟨h13, hcap⟩ := encodeWalBody_facts r hwf
  have hL32 : (encodeWalBody r).length + 4 < 2 ^ 32 := by omega
  have hC32 : crc32 (encodeWalBody r) < 2 ^ 32 := crc32_lt _
  have hfr : encodeWalFrame r ++ rest =
      u32le ((encodeWalBody r).length + 4) ++
        (u32le (crc32 (encodeWalBody r)) ++ (encodeWalBody r ++ rest)) := by
    simp [encodeWalFrame, List.append_assoc]
  rw [hfr]
  simp only [replayGo, readU32_u32le _ hL32, readU32_u32le _ hC32,
    Nat.add_sub_cancel, take_len_append, drop_len_append,
    parseWalBody_encode r hwf, List.length_append]
  rw [if_neg (by omega), if_neg (by omega), if_neg (by simp)]

theorem replayGo_stable : ∀ (f₁ : Nat) (bytes : Bytes) (f₂ : Nat),
    bytes.length ≤ f₁ → bytes.length ≤ f₂ →
    replayGo f₁ bytes = replayGo f₂ bytes := by
  intro f₁
  induction f₁ with
  | zero =>
    intro bytes f₂ h1 _
    have : bytes = [] := List.length_eq_zero.mp (Nat.le_zero.mp h1)
    subst this
    rw [replayGo_nil, replayGo_nil]
  | succ f ih =>
    intro bytes f₂ h1 h2
    cases f₂ with
    | zero =>
      have : bytes = [] := List.length_eq_zero.mp (Nat.le_zero.mp h2)
      subst this
      rw [replayGo_nil, replayGo_nil]
    | succ g =>
      show replayGo (f + 1) bytes = replayGo (g + 1) bytes
      simp only [replayGo]
      cases hr : readU32? bytes with
      | none => rfl
      | some p =>
        obtain ⟨recordLen, r1⟩ := p
        have hlen1 : bytes.length = r1.length + 4 := readU32_length hr
        dsimp only
        by_cases hguard : recordLen ≤ 4 ∨ recordLen > WAL_MAX_RECORD_SIZE
        · simp only [if_pos hguard]
        · simp only [if_neg hguard]
          cases hr2 : readU32? r1 with
          | none => rfl
          | some q =>
            obtain ⟨crc, r2⟩ := q
            have hlen2 : r1.length = r2.length + 4 := readU32_length hr2
            dsimp only
            by_cases hshort : r2.length < recordLen - 4
            · simp only [if_pos hshort]
            · simp only [if_neg hshort]
              by_cases hcrc : crc32 (r2.take (recordLen - 4)) ≠ crc
              · simp only [if_pos hcrc]
              · simp only [if_neg hcrc]
                cases hp : parseWalBody (r2.take (recordLen - 4)) with
                | error e => rfl
                | ok rec =>
                  have hdrop : (r2.drop (recordLen - 4)).length ≤ f ∧
                      (r2.drop (recordLen - 4)).length ≤ g := by
                    simp only [List.length_drop]
                    omega
                  rw [ih _ g hdrop.1 hdrop.2]

theorem encodeWalFrame_length (r : WalRecord) :
    (encodeWalFrame r).length = 8 + (encodeWalBody r).length := by
  simp only [encodeWalFrame, List.length_append, u32le_length]

theorem walReplay_append_frames (rs : List WalRecord) (rest : Bytes)
    (hwf : ∀ r ∈ rs, WalRecordWF r) :
    walReplay (encodeWal rs ++ rest) = (walReplay rest).map fun l => rs ++ l := by
  induction rs with
  | nil =>
    simp only [encodeWal, List.map_nil, List.flatten_nil, List.nil_append]
    cases walReplay rest <;> rfl
  | cons r t ih =>
    have hwr : WalRecordWF r := hwf r (List.mem_cons_self r t)
    have hwt : ∀ x ∈ t, WalRecordWF x := fun x hx => hwf x (List.mem_cons_of_mem r hx)
    have hassoc : encodeWal (r :: t) ++ rest =
        encodeWalFrame r ++ (encodeWal t ++ rest) := by
      simp [encodeWal, List.append_assoc]
    rw [hassoc]
    have h13 := (encodeWalBody_facts r hwr).1
    have hfl := encodeWalFrame_length r
    have hlen : (encodeWalFrame r ++ (encodeWal t ++ rest)).length =
        (encodeWalFrame r).length + (encodeWal t ++ rest).length := by
      simp
    unfold walReplay
    rw [hlen]
    have hsplit : (encodeWalFrame r).length + (encodeWal t ++ rest).length =
        ((encodeWalFrame r).length - 1 + (encodeWal t ++ rest).length) + 1 := by
      omega
    rw [hsplit, replayGo_cons _ r _ hwr]
    rw [replayGo_stable _ _ (encodeWal t ++ rest).length (by omega) (le_refl _)]
    have := ih hwt
    unfold walReplay at this
    rw [this]
    cases replayGo (List.length rest) rest <;> rfl

/-- C4(a) as a corollary shape: replay of a cleanly-terminated WAL yields
exactly the appended records. -/
theorem walReplay_clean (rs : List WalRecord) (hwf : ∀ r ∈ rs, WalRecordWF r) :
    walReplay (encodeWal rs) = Except.ok rs := by
  have h := walReplay_append_frames rs [] hwf
  rw [List.append_nil] at h
  rw [h]
  have h0 : walReplay ([] : Bytes) = Except.ok [] := rfl
  rw [h0]
  show Except.ok (rs ++ []) = Except.ok rs
  rw [List.append_nil]

theorem walReplay_truncated_frame (r : WalRecord) (n : Nat)
    (hwf : WalRecordWF r) (hn : n < (encodeWalFrame r).length) :
    walReplay ((encodeWalFrame r).take n) = Except.ok [] := by
  have hmax : WAL_MAX_RECORD_SIZE = 67108864 := rfl
  obtain ⟨h13, hcap⟩ := encodeWalBody_facts r hwf
  have hL32 : (encodeWalBody r).length + 4 < 2 ^ 32 := by omega
  have hfl := encodeWalFrame_length r
  have hfr : encodeWalFrame r =
      u32le ((encodeWalBody r).length + 4) ++
        (u32le (crc32 (encodeWalBody r)) ++ encodeWalBody r) := by
    simp [encodeWalFrame, List.append_assoc]
  by_cases h4 : n < 4
  · refine replayGo_eof (readU32_none_of_short ?_) _
    simp only [List.length_take]
    omega
  · have htake : (encodeWalFrame r).take n =
        u32le ((encodeWalBody r).length + 4) ++
          ((u32le (crc32 (encodeWalBody r)) ++ encodeWalBody r).take (n - 4)) := by
      rw [hfr, List.take_append_eq_append_take]
      congr 1
      exact List.take_of_length_le (by simp only [u32le_length]; omega)
    rw [htake]
    have hlen' : (u32le ((encodeWalBody r).length + 4) ++
        ((u32le (crc32 (encodeWalBody r)) ++ encodeWalBody r).take (n - 4))).length =
        4 + ((u32le (crc32 (encodeWalBody r)) ++ encodeWalBody r).take (n - 4)).length := by
      simp [u32le_length]
    unfold walReplay
    rw [hlen']
    have : ∀ m, 4 + m = (3 + m) + 1 := by omega
    rw [this]
    simp only [replayGo, readU32_u32le _ hL32]
    rw [if_neg (by omega)]
    by_cases h8 : n < 8
    · have : readU32? ((u32le (crc32 (encodeWalBody r)) ++ encodeWalBody r).take (n - 4)) = none := by
        refine readU32_none_of_short ?_
        simp only [List.length_take, List.length_append, u32le_length]
        omega
      rw [this]
    · have hC32 : crc32 (encodeWalBody r) < 2 ^ 32 := crc32_lt _
      have htake2 : (u32le (crc32 (encodeWalBody r)) ++ encodeWalBody r).take (n - 4) =
          u32le (crc32 (encodeWalBody r)) ++ (encodeWalBody r).take (n - 8) := by
        rw [List.take_append_eq_append_take]
        congr 1
        exact List.take_of_length_le (by simp only [u32le_length]; omega)
      have hnb : n - 8 < (encodeWalBody r).length := by
        rw [hfl] at hn
        omega
      have hcond : ((encodeWalBody r).take (n - 8)).length <
          (encodeWalBody r).length + 4 - 4 := by
        simp only [List.length_take]
        omega
      rw [htake2, readU32_u32le _ hC32]
      dsimp only
      rw [if_pos hcond]

theorem walReplay_of_succ (bytes : Bytes) (f : Nat) (h : bytes.length = f + 1) :
    walReplay bytes = replayGo (f + 1) bytes := by
  unfold walReplay
  rw [h]

theorem walReplay_bad_record_len (n : Nat) (rest : Bytes) (h32 : n < 2 ^ 32)
    (hbad : n ≤ 4 ∨ n > WAL_MAX_RECORD_SIZE) :
    walReplay (u32le n ++ rest) = Except.error WalErr.corrupt := by
  rw [walReplay_of_succ _ (rest.length + 3) (by simp [u32le_length]; omega)]
  simp only [replayGo, readU32_u32le _ h32]
  rw [if_pos hbad]

theorem walReplay_crc_mismatch (body : Bytes) (c : Nat) (rest : Bytes)
    (h1 : 1 ≤ body.length) (hcap : body.length + 4 ≤ WAL_MAX_RECORD_SIZE)
    (hc : c < 2 ^ 32) (hne : crc32 body ≠ c) :
    walReplay (u32le (body.length + 4) ++ (u32le c ++ (body ++ rest))) =
      Except.error WalErr.corrupt := by
  have hmax : WAL_MAX_RECORD_SIZE = 67108864 := rfl
  have hL32 : body.length + 4 < 2 ^ 32 := by omega
  rw [walReplay_of_succ _ (7 + (body ++ rest).length)
    (by simp only [List.length_append, u32le_length]; omega)]
  simp only [replayGo, readU32_u32le _ hL32, readU32_u32le _ hc,
    Nat.add_sub_cancel, take_len_append, List.length_append]
  rw [if_neg (by omega), if_neg (by omega), if_pos hne]

theorem parseWalBody_unknown_op (seq op : Nat) (key : Bytes)
    (hseq : seq < 2 ^ 64)
    (hk : 13 + key.length + 4 ≤ WAL_MAX_RECORD_SIZE) :
    parseWalBody (u64le seq ++ (op + 2) :: (u32le key.length ++ key)) =
      Except.error WalErr.corrupt := by
  have hmax : WAL_MAX_RECORD_SIZE = 67108864 := rfl
  have hk32 : key.length < 2 ^ 32 := by omega
  simp only [parseWalBody, List.append_assoc, List.cons_append,
    readU64_u64le seq hseq, readU8_cons, readU32_u32le key.length hk32,
    List.length_append, u64le_length, u32le_length, List.length_cons,
    take_len_append, drop_len_append]
  rw [if_neg (by omega), if_neg (by omega)]

theorem walReplay_unknown_op (seq op : Nat) (key rest : Bytes)
    (hseq : seq < 2 ^ 64)
    (hk : 13 + key.length + 4 ≤ WAL_MAX_RECORD_SIZE) :
    walReplay
      (u32le ((u64le seq ++ (op + 2) :: (u32le key.length ++ key)).length + 4) ++
        (u32le (crc32 (u64le seq ++ (op + 2) :: (u32le key.length ++ key))) ++
          ((u64le seq ++ (op + 2) :: (u32le key.length ++ key)) ++ rest))) =
      Except.error WalErr.corrupt := by
  have hmax : WAL_MAX_RECORD_SIZE = 67108864 := rfl
  have hblen : (u64le seq ++ (op + 2) :: (u32le key.length ++ key)).length =
      13 + key.length := by
    simp only [List.length_append, u64le_length, u32le_length, List.length_cons]
    omega
  have hL32 : (u64le seq ++ (op + 2) :: (u32le key.length ++ key)).length + 4 <
      2 ^ 32 := by
    rw [hblen]; omega
  rw [walReplay_of_succ _
    (7 + ((u64le seq ++ (op + 2) :: (u32le key.length ++ key)) ++ rest).length)
    (by simp only [List.length_append, u64le_length, u32le_length,
      List.length_cons]; omega)]
  simp only [replayGo, readU32_u32le _ hL32, readU32_u32le _ (crc32_lt _),
    Nat.add_sub_cancel, take_len_append, drop_len_append,
    parseWalBody_unknown_op seq op key hseq hk]
  rw [if_neg (by rw [hblen]; omega),
    if_neg (by simp only [List.length_append]; omega),
    if_neg (by simp)]

/-- C4 (amended): WAL replay (a) on a cleanly terminated stream of
well-formed records returns all of them; (b) on any stream truncated
strictly inside a final frame — within `record_len`, the CRC, or the
body — returns the complete prior records; (c) a `record_len` outside
(4, 64 MiB] is a corruption error, a CRC mismatch is a corruption error,
and an unknown op code (≥ 2) inside a valid frame is a corruption error.
(A key/value length that passes the `≤ body_len` bound but overruns the
remaining body fails with an I/O `UnexpectedEof` error rather than the
corruption error the original claim states — see the counterexample.) -/
theorem wal_replay_characterization :
    (∀ rs : List WalRecord, (∀ r ∈ rs, WalRecordWF r) →
      walReplay (encodeWal rs) = Except.ok rs) ∧
    (∀ (rs : List WalRecord) (r : WalRecord) (n : Nat),
      (∀ x ∈ rs, WalRecordWF x) → WalRecordWF r →
      n < (encodeWalFrame r).length →
      walReplay (encodeWal rs ++ (encodeWalFrame r).take n) = Except.ok rs) ∧
    (∀ (n : Nat) (rest : Bytes), n < 2 ^ 32 →
      (n ≤ 4 ∨ n > WAL_MAX_RECORD_SIZE) →
      walReplay (u32le n ++ rest) = Except.error WalErr.corrupt) ∧
    (∀ (body : Bytes) (c : Nat) (rest : Bytes),
      1 ≤ body.length → body.length + 4 ≤ WAL_MAX_RECORD_SIZE → c < 2 ^ 32 →
      crc32 body ≠ c →
      walReplay (u32le (body.length + 4) ++ (u32le c ++ (body ++ rest))) =
        Except.error WalErr.corrupt) ∧
    (∀ (seq op : Nat) (key rest : Bytes), seq < 2 ^ 64 →
      13 + key.length + 4 ≤ WAL_MAX_RECORD_SIZE →
      walReplay
        (u32le ((u64le seq ++ (op + 2) :: (u32le key.length ++ key)).length + 4) ++
          (u32le (crc32 (u64le seq ++ (op + 2) :: (u32le key.length ++ key))) ++
            ((u64le seq ++ (op + 2) :: (u32le key.length ++ key)) ++ rest))) =
        Except.error WalErr.corrupt) := by
  refine ⟨walReplay_clean, ?_, walReplay_bad_record_len, walReplay_crc_mismatch,
    walReplay_unknown_op⟩
  intro rs r n hrs hr hn
  rw [walReplay_append_frames rs _ hrs, walReplay_truncated_frame r n hr hn]
  show Except.ok (rs ++ []) = Except.ok rs
  rw [List.append_nil]

set_option maxRecDepth 100000 in
/-- C4 counterexample: a fully-read, CRC-valid Del frame whose `key_len`
(8) passes the `≤ body_len` (13) check but overruns the remaining body
(0 bytes): replay fails with the I/O `UnexpectedEof` error, not the
corruption error the claim requires for "any inconsistent length inside a
fully-read frame". -/
theorem wal_inconsistent_length_not_corrupt :
    walReplay ([17, 0, 0, 0] ++
        (u32le (crc32 [0, 0, 0, 0, 0, 0, 0, 0, 1, 8, 0, 0, 0]) ++
          [0, 0, 0, 0, 0, 0, 0, 0, 1, 8, 0, 0, 0])) =
      Except.error WalErr.ioEof ∧ WalErr.ioEof ≠ WalErr.corrupt :=
  ⟨rfl, by decide⟩

/-- Witness for C4 at concrete inputs: a one-record WAL replays to that
record, and a bad `record_len` (3) is corruption. -/
theorem wal_replay_characterization_witness :
    walReplay (encodeWal [WalRecord.del 1 [7]]) =
        Except.ok [WalRecord.del 1 [7]] ∧
      walReplay (u32le 3 ++ [9, 9]) = Except.error WalErr.corrupt := by
  constructor
  · refine wal_replay_characterization.1 [WalRecord.del 1 [7]] ?_
    intro r hr
    simp only [List.mem_singleton] at hr
    subst hr
    constructor <;> decide
  · exact wal_replay_characterization.2.2.1 3 [9, 9] (by decide) (by decide)

/-! ### C6 — merge iterator lemmas -/

theorem minHead_fold_some_of_acc (srcs : List Src) (a : Bytes) :
    ∃ m, srcs.foldl
      (fun acc s =>
        match s.head? with
        | some (k, _) => match acc with
          | none => some k
          | some m => if k < m then some k else some m
        | none => acc)
      (some a) = some m := by
  induction srcs generalizing a with
  | nil => exact ⟨a, rfl⟩
  | cons s t ih =>
    simp only [List.foldl_cons]
    cases s.head? with
    | none => exact ih a
    | some p =>
      obtain ⟨k, e⟩ := p
      dsimp only
      by_cases hk : k < a
      · simpa [hk] using ih k
      · simpa [hk] using ih a

theorem minHead_fold_spec (srcs : List Src) :
    ∀ (acc : Option Bytes) (m : Bytes),
    srcs.foldl
      (fun acc s =>
        match s.head? with
        | some (k, _) => match acc with
          | none => some k
          | some m => if k < m then some k else some m
        | none => acc)
      acc = some m →
    ((acc = some m ∨ ∃ s ∈ srcs, ∃ e, s.head? = some (m, e)) ∧
      (∀ a, acc = some a → m ≤ a) ∧
      (∀ s ∈ srcs, ∀ k e, s.head? = some (k, e) → m ≤ k)) := by
  induction srcs with
  | nil =>
    intro acc m h
    simp only [List.foldl_nil] at h
    refine ⟨Or.inl h, ?_, ?_⟩
    · intro a ha
      rw [ha] at h
      injection h with h
      exact le_of_eq h.symm
    · intro s hs
      simp at hs
  | cons s t ih =>
    intro acc m h
    simp only [List.foldl_cons] at h
    cases hh : s.head? with
    | none =>
      rw [hh] at h
      obtain ⟨hmem, hacc, hall⟩ := ih acc m h
      refine ⟨?_, hacc, ?_⟩
      · rcases hmem with hmem | ⟨s', hs', e, he⟩
        · exact Or.inl hmem
        · exact Or.inr ⟨s', List.mem_cons_of_mem s hs', e, he⟩
      · intro s' hs' k e he
        simp only [List.mem_cons] at hs'
        rcases hs' with hs' | hs'
        · subst hs'
          rw [hh] at he
          cases he
        · exact hall s' hs' k e he
    | some p =>
      obtain ⟨k0, e0⟩ := p
      rw [hh] at h
      dsimp only at h
      obtain ⟨hmem, hacc, hall⟩ := ih _ m h
      have hstep : ∀ x, (match acc with
          | none => some k0
          | some m0 => if k0 < m0 then some k0 else some m0) = some x →
          (x = k0 ∨ acc = some x) ∧ x ≤ k0 ∧ (∀ a, acc = some a → x ≤ a) := by
        intro x hx
        cases acc with
        | none =>
          injection hx with hx
          subst hx
          exact ⟨Or.inl rfl, le_refl _, by intro a ha; cases ha⟩
        | some m0 =>
          dsimp only at hx
          by_cases hlt : k0 < m0
          · rw [if_pos hlt] at hx
            injection hx with hx
            subst hx
            refine ⟨Or.inl rfl, le_refl _, ?_⟩
            intro a ha
            injection ha with ha
            subst ha
            exact le_of_lt hlt
          · rw [if_neg hlt] at hx
            injection hx with hx
            subst hx
            refine ⟨Or.inr rfl, le_of_not_lt hlt, ?_⟩
            intro a ha
            injection ha with ha
            subst ha
            exact le_refl _
      refine ⟨?_, ?_, ?_⟩
      · rcases hmem with hmem | ⟨s', hs', e, he⟩
        · obtain ⟨hx, _, _⟩ := hstep m hmem
          rcases hx with hx | hx
          · exact Or.inr ⟨s, List.mem_cons_self s t, e0, by rw [hh, hx]⟩
          · exact Or.inl hx
        · exact Or.inr ⟨s', List.mem_cons_of_mem s hs', e, he⟩
      · intro a ha
        cases hs : (match acc with
            | none => some k0
            | some m0 => if k0 < m0 then some k0 else some m0) with
        | none =>
          cases acc with
          | none => cases hs
          | some m0 =>
            by_cases hlt : k0 < m0 <;> simp [hlt] at hs
        | some x =>
          obtain ⟨_, _, hxa⟩ := hstep x hs
          exact le_trans (hacc x hs) (hxa a ha)
      · intro s' hs' k e he
        simp only [List.mem_cons] at hs'
        rcases hs' with hs' | hs'
        · subst hs'
          rw [hh] at he
          injection he with he
          have hk : k0 = k := congrArg Prod.fst he
          cases hs : (match acc with
              | none => some k0
              | some m0 => if k0 < m0 then some k0 else some m0) with
          | none =>
            cases acc with
            | none => cases hs
            | some m0 =>
              by_cases hlt : k0 < m0 <;> simp [hlt] at hs
          | some x =>
            obtain ⟨_, hxk0, _⟩ := hstep x hs
            exact hk ▸ le_trans (hacc x hs) hxk0
        · exact hall s' hs' k e he

theorem minHead_spec {srcs : List Src} {m : Bytes} (h : minHead? srcs = some m) :
    (∃ s ∈ srcs, ∃ e, s.head? = some (m, e)) ∧
      (∀ s ∈ srcs, ∀ k e, s.head? = some (k, e) → m ≤ k) := by
  obtain ⟨hmem, _, hall⟩ := minHead_fold_spec srcs none m h
  rcases hmem with h' | h'
  · cases h'
  · exact ⟨h', hall⟩

theorem minHead_fold_some_stays (srcs : List Src) (a : Bytes) :
    srcs.foldl
      (fun acc s =>
        match s.head? with
        | some (k, _) => match acc with
          | none => some k
          | some m => if k < m then some k else some m
        | none => acc)
      (some a) ≠ none := by
  obtain ⟨m, hm⟩ := minHead_fold_some_of_acc srcs a
  rw [hm]
  exact Option.some_ne_none m

theorem minHead_none_spec {srcs : List Src} (h : minHead? srcs = none) :
    ∀ s ∈ srcs, s = [] := by
  induction srcs with
  | nil => intro s hs; simp at hs
  | cons s t ih =>
    unfold minHead? at h
    simp only [List.foldl_cons] at h
    cases hh : s.head? with
    | some p =>
      obtain ⟨k, e⟩ := p
      rw [hh] at h
      dsimp only at h
      exact absurd h (minHead_fold_some_stays t k)
    | none =>
      rw [hh] at h
      intro s' hs'
      simp only [List.mem_cons] at hs'
      rcases hs' with hs' | hs'
      · subst hs'
        exact List.head?_eq_none_iff.mp hh
      · exact ih h s' hs'

theorem bestAt_fold_some_stays (srcs : List Src) (m : Bytes) (b : ValueEntry) :
    ∃ e, srcs.foldl
      (fun acc s =>
        match s.head? with
        | some (k, e) =>
          if k = m then
            match acc with
            | none => some e
            | some b => if e.seq > b.seq then some e else some b
          else acc
        | none => acc)
      (some b) = some e := by
  induction srcs generalizing b with
  | nil => exact ⟨b, rfl⟩
  | cons s t ih =>
    simp only [List.foldl_cons]
    cases s.head? with
    | none => exact ih b
    | some p =>
      obtain ⟨k, e0⟩ := p
      dsimp only
      by_cases hk : k = m
      · simp only [hk, if_pos rfl]
        by_cases hgt : e0.seq > b.seq
        · simpa [hgt] using ih e0
        · simpa [hgt] using ih b
      · simpa [hk] using ih b

theorem bestAt_fold_spec (m : Bytes) (srcs : List Src) :
    ∀ (acc : Option ValueEntry) (e : ValueEntry),
    srcs.foldl
      (fun acc s =>
        match s.head? with
        | some (k, e) =>
          if k = m then
            match acc with
            | none => some e
            | some b => if e.seq > b.seq then some e else some b
          else acc
        | none => acc)
      acc = some e →
    ((acc = some e ∨ ∃ s ∈ srcs, s.head? = some (m, e)) ∧
      (∀ s ∈ srcs, ∀ e', s.head? = some (m, e') → e'.seq ≤ e.seq) ∧
      (∀ b, acc = some b → b.seq ≤ e.seq)) := by
  induction srcs with
  | nil =>
    intro acc e h
    simp only [List.foldl_nil] at h
    refine ⟨Or.inl h, by intro s hs; simp at hs, ?_⟩
    intro b hb
    rw [hb] at h
    injection h with h
    exact le_of_eq (congrArg ValueEntry.seq h)
  | cons s t ih =>
    intro acc e h
    simp only [List.foldl_cons] at h
    cases hh : s.head? with
    | none =>
      rw [hh] at h
      obtain ⟨hmem, hall, hacc⟩ := ih acc e h
      refine ⟨?_, ?_, hacc⟩
      · rcases hmem with hmem | ⟨s', hs', he⟩
        · exact Or.inl hmem
        · exact Or.inr ⟨s', List.mem_cons_of_mem s hs', he⟩
      · intro s' hs' e' he'
        simp only [List.mem_cons] at hs'
        rcases hs' with hs' | hs'
        · subst hs'
          rw [hh] at he'
          cases he'
        · exact hall s' hs' e' he'
    | some p =>
      obtain ⟨k0, e0⟩ := p
      rw [hh] at h
      dsimp only at h
      by_cases hk : k0 = m
      · rw [if_pos hk] at h
        obtain ⟨hmem, hall, hacc⟩ := ih _ e h
        have hstep : ∀ x, (match acc with
            | none => some e0
            | some b => if e0.seq > b.seq then some e0 else some b) = some x →
            ((x = e0 ∨ acc = some x) ∧ e0.seq ≤ x.seq ∧
              (∀ b, acc = some b → b.seq ≤ x.seq)) := by
          intro x hx
          cases acc with
          | none =>
            injection hx with hx
            subst hx
            exact ⟨Or.inl rfl, le_refl _, by intro b hb; cases hb⟩
          | some b0 =>
            dsimp only at hx
            by_cases hgt : e0.seq > b0.seq
            · rw [if_pos hgt] at hx
              injection hx with hx
              subst hx
              refine ⟨Or.inl rfl, le_refl _, ?_⟩
              intro b hb
              injection hb with hb
              subst hb
              exact le_of_lt hgt
            · rw [if_neg hgt] at hx
              injection hx with hx
              subst hx
              refine ⟨Or.inr rfl, le_of_not_lt hgt, ?_⟩
              intro b hb
              injection hb with hb
              subst hb
              exact le_refl _
        refine ⟨?_, ?_, ?_⟩
        · rcases hmem with hmem | ⟨s', hs', he⟩
          · obtain ⟨hx, _, _⟩ := hstep e hmem
            rcases hx with hx | hx
            · exact Or.inr ⟨s, List.mem_cons_self s t,
                by rw [hh, hx, hk]⟩
            · exact Or.inl hx
          · exact Or.inr ⟨s', List.mem_cons_of_mem s hs', he⟩
        · intro s' hs' e' he'
          simp only [List.mem_cons] at hs'
          rcases hs' with hs' | hs'
          · subst hs'
            rw [hh] at he'
            injection he' with he'
            have he0 : e0 = e' := congrArg Prod.snd he'
            subst he0
            cases hs : (match acc with
                | none => some e0
                | some b => if e0.seq > b.seq then some e0 else some b) with
            | none =>
              cases acc with
              | none => cases hs
              | some b0 =>
                dsimp only at hs
                by_cases hgt : e0.seq > b0.seq <;> simp [hgt] at hs
            | some x =>
              obtain ⟨_, hex, _⟩ := hstep x hs
              exact le_trans hex (hacc x hs)
          · exact hall s' hs' e' he'
        · intro b hb
          cases hs : (match acc with
              | none => some e0
              | some b => if e0.seq > b.seq then some e0 else some b) with
          | none =>
            cases acc with
            | none => cases hs
            | some b0 =>
              dsimp only at hs
              by_cases hgt : e0.seq > b0.seq <;> simp [hgt] at hs
          | some x =>
            obtain ⟨_, _, hbx⟩ := hstep x hs
            exact le_trans (hbx b hb) (hacc x hs)
      · rw [if_neg hk] at h
        obtain ⟨hmem, hall, hacc⟩ := ih acc e h
        refine ⟨?_, ?_, hacc⟩
        · rcases hmem with hmem | ⟨s', hs', he⟩
          · exact Or.inl hmem
          · exact Or.inr ⟨s', List.mem_cons_of_mem s hs', he⟩
        · intro s' hs' e' he'
          simp only [List.mem_cons] at hs'
          rcases hs' with hs' | hs'
          · subst hs'
            rw [hh] at he'
            injection he' with he'
            exact absurd (congrArg Prod.fst he') hk
          · exact hall s' hs' e' he'

theorem bestAt_spec {srcs : List Src} {m : Bytes} {e : ValueEntry}
    (h : bestAt srcs m = some e) :
    (∃ s ∈ srcs, s.head? = some (m, e)) ∧
      (∀ s ∈ srcs, ∀ e', s.head? = some (m, e') → e'.seq ≤ e.seq) := by
  obtain ⟨hmem, hall, _⟩ := bestAt_fold_spec m srcs none e h
  rcases hmem with h' | h'
  · cases h'
  · exact ⟨h', hall⟩

theorem bestAt_some_of_head {srcs : List Src} {m : Bytes}
    (h : ∃ s ∈ srcs, ∃ e, s.head? = some (m, e)) :
    ∃ e, bestAt srcs m = some e := by
  obtain ⟨s, hs, e, he⟩ := h
  unfold bestAt
  obtain ⟨l₁, l₂, rfl⟩ := List.append_of_mem hs
  rw [List.foldl_append]
  simp only [List.foldl_cons, he, eq_self_iff_true, if_true]
  cases hacc : l₁.foldl
      (fun acc s =>
        match s.head? with
        | some (k, e) =>
          if k = m then
            match acc with
            | none => some e
            | some b => if e.seq > b.seq then some e else some b
          else acc
        | none => acc)
      none with
  | none => exact bestAt_fold_some_stays l₂ m e
  | some b =>
    by_cases hgt : e.seq > b.seq
    · simpa [hgt] using bestAt_fold_some_stays l₂ m e
    · simpa [hgt] using bestAt_fold_some_stays l₂ m b

theorem head_some_mapGet {s : Src} {k : Bytes} {e : ValueEntry}
    (h : s.head? = some (k, e)) : mapGet s k = some e := by
  cases s with
  | nil => cases h
  | cons p t =>
    simp only [List.head?_cons] at h
    injection h with h
    subst h
    simp [mapGet]

theorem mapGet_eq_head_of_min {s : Src} (hsort : SortedKeys s) {m : Bytes}
    {e : ValueEntry} (hget : mapGet s m = some e)
    (hmin : ∀ k e', s.head? = some (k, e') → m ≤ k) :
    s.head? = some (m, e) := by
  cases s with
  | nil => cases hget
  | cons p t =>
    obtain ⟨k0, e0⟩ := p
    have hle : m ≤ k0 := hmin k0 e0 rfl
    by_cases heq : m = k0
    · subst heq
      simp only [mapGet, eq_self_iff_true, if_true] at hget
      injection hget with hget
      subst hget
      rfl
    · simp only [mapGet, if_neg heq] at hget
      have hmem : m ∈ mapKeys t := mapGet_some_mem_keys hget
      simp only [SortedKeys, mapKeys, List.map_cons, List.pairwise_cons] at hsort
      have := hsort.1 m hmem
      exact absurd (lt_of_le_of_lt hle this) (lt_irrefl m)

theorem advanceOne_nil (m : Bytes) : advanceOne [] m = [] := rfl

theorem advanceOne_cons (p : Bytes × ValueEntry) (t : Src) (m : Bytes) :
    advanceOne (p :: t) m = if p.1 = m then t else p :: t := by
  obtain ⟨k0, e0⟩ := p
  rfl

theorem mapGet_advanceOne_ne (s : Src) {k m : Bytes} (hne : k ≠ m) :
    mapGet (advanceOne s m) k = mapGet s k := by
  cases s with
  | nil => rfl
  | cons p t =>
    obtain ⟨k0, e0⟩ := p
    rw [advanceOne_cons]
    by_cases h0 : k0 = m
    · subst h0
      rw [if_pos rfl]
      simp only [mapGet, if_neg hne]
    · rw [if_neg h0]

theorem seqsFor_advanceAt_ne (srcs : List Src) {k m : Bytes} (hne : k ≠ m) :
    seqsFor (advanceAt srcs m) k = seqsFor srcs k := by
  induction srcs with
  | nil => rfl
  | cons s t ih =>
    simp only [advanceAt, List.map_cons, seqsFor, List.filterMap_cons] at ih ⊢
    rw [mapGet_advanceOne_ne s hne]
    cases mapGet s k <;> simp [ih]

theorem advanceOne_length_le (s : Src) (m : Bytes) :
    (advanceOne s m).length ≤ s.length := by
  cases s with
  | nil => exact le_refl _
  | cons p t =>
    rw [advanceOne_cons]
    by_cases h0 : p.1 = m
    · rw [if_pos h0]
      simp
    · rw [if_neg h0]

theorem totalLen_advanceAt_le (srcs : List Src) (m : Bytes) :
    totalLen (advanceAt srcs m) ≤ totalLen srcs := by
  induction srcs with
  | nil => exact le_refl _
  | cons s t ih =>
    simp only [advanceAt, List.map_cons, totalLen, List.sum_cons] at ih ⊢
    exact Nat.add_le_add (advanceOne_length_le s m) ih

theorem totalLen_advanceAt_lt {srcs : List Src} {m : Bytes}
    (h : ∃ s ∈ srcs, ∃ e, s.head? = some (m, e)) :
    totalLen (advanceAt srcs m) < totalLen srcs := by
  induction srcs with
  | nil => simp at h
  | cons s t ih =>
    simp only [advanceAt, List.map_cons, totalLen, List.map_cons, List.sum_cons]
    obtain ⟨s', hs', e, he⟩ := h
    simp only [List.mem_cons] at hs'
    rcases hs' with hs' | hs'
    · subst hs'
      cases s' with
      | nil => cases he
      | cons p t0 =>
        simp only [List.head?_cons] at he
        injection he with he
        have hp1 : p.1 = m := congrArg Prod.fst he
        rw [advanceOne_cons, if_pos hp1]
        have hrest := totalLen_advanceAt_le t m
        simp only [advanceAt, totalLen] at hrest
        simp only [List.length_cons]
        omega
    · have hlt := ih ⟨s', hs', e, he⟩
      simp only [advanceAt, totalLen] at hlt
      have hle := advanceOne_length_le s m
      omega

theorem advanceAt_sorted {srcs : List Src} {m : Bytes}
    (hs : ∀ s ∈ srcs, SortedKeys s) :
    ∀ s' ∈ advanceAt srcs m, SortedKeys s' := by
  intro s' hs'
  obtain ⟨s, hsmem, rfl⟩ := List.mem_map.mp hs'
  have hsort := hs s hsmem
  cases s with
  | nil => exact hsort
  | cons p t =>
    rw [advanceOne_cons]
    by_cases h0 : p.1 = m
    · rw [if_pos h0]
      obtain ⟨k0, e0⟩ := p
      simp only [SortedKeys, mapKeys, List.map_cons, List.pairwise_cons] at hsort
      exact hsort.2
    · rw [if_neg h0]
      exact hsort

theorem advanceAt_keys_gt {srcs : List Src} {m : Bytes}
    (hs : ∀ s ∈ srcs, SortedKeys s)
    (hmin : ∀ s ∈ srcs, ∀ k e, s.head? = some (k, e) → m ≤ k) :
    ∀ s' ∈ advanceAt srcs m, ∀ k ∈ mapKeys s', m < k := by
  intro s' hs' k hk
  obtain ⟨s, hsmem, rfl⟩ := List.mem_map.mp hs'
  have hsort := hs s hsmem
  cases s with
  | nil => simp [advanceOne_nil, mapKeys] at hk
  | cons p t =>
    obtain ⟨k0, e0⟩ := p
    have hle : m ≤ k0 := hmin _ hsmem k0 e0 rfl
    simp only [SortedKeys, mapKeys, List.map_cons, List.pairwise_cons] at hsort
    rw [advanceOne_cons] at hk
    by_cases h0 : (k0, e0).1 = m
    · rw [if_pos h0] at hk
      simp only at h0
      subst h0
      exact lt_of_le_of_lt hle (hsort.1 k hk)
    · rw [if_neg h0] at hk
      simp only at h0
      have hm0 : m < k0 := lt_of_le_of_ne hle fun h => h0 h.symm
      simp only [mapKeys, List.map_cons, List.mem_cons] at hk
      rcases hk with hk | hk
      · exact hk ▸ hm0
      · exact lt_trans hm0 (hsort.1 k hk)

theorem mem_seqsFor {srcs : List Src} {k : Bytes} {q : Nat} :
    q ∈ seqsFor srcs k ↔ ∃ s ∈ srcs, ∃ e, mapGet s k = some e ∧ e.seq = q := by
  unfold seqsFor
  rw [List.mem_filterMap]
  constructor
  · rintro ⟨s, hs, hf⟩
    cases hg : mapGet s k with
    | none => rw [hg] at hf; cases hf
    | some e =>
      rw [hg] at hf
      simp only [Option.map_some'] at hf
      injection hf with hf
      exact ⟨s, hs, e, hg, hf⟩
  · rintro ⟨s, hs, e, hg, hq⟩
    refine ⟨s, hs, ?_⟩
    rw [hg]
    simp [hq]

theorem all_nil_of_totalLen_zero {srcs : List Src} (h : totalLen srcs = 0) :
    ∀ s ∈ srcs, s = [] := by
  induction srcs with
  | nil => intro s hs; cases hs
  | cons s t ih =>
    simp only [totalLen, List.map_cons, List.sum_cons] at h
    have ht : totalLen t = 0 := by simp only [totalLen]; omega
    intro s' hs'
    simp only [List.mem_cons] at hs'
    rcases hs' with hs' | hs'
    · subst hs'
      exact List.length_eq_zero.mp (by omega)
    · exact ih ht s' hs'

theorem seqsFor_nil_of_all_nil {srcs : List Src} (h : ∀ s ∈ srcs, s = [])
    (k : Bytes) : seqsFor srcs k = [] := by
  induction srcs with
  | nil => rfl
  | cons s t ih =>
    have hs : s = [] := h s (List.mem_cons_self s t)
    subst hs
    have hstep : seqsFor ([] :: t) k = seqsFor t k := rfl
    rw [hstep]
    exact ih fun s hs => h s (List.mem_cons_of_mem _ hs)

theorem mergeGo_none {fuel : Nat} {srcs : List Src}
    (hm : minHead? srcs = none) : mergeGo fuel srcs = [] := by
  cases fuel with
  | zero => rfl
  | succ n => simp only [mergeGo, hm]

theorem mergeGo_succ_some {fuel : Nat} {srcs : List Src} {m : Bytes}
    {e : ValueEntry} (hm : minHead? srcs = some m)
    (he : bestAt srcs m = some e) :
    mergeGo (fuel + 1) srcs = (m, e) :: mergeGo fuel (advanceAt srcs m) := by
  simp only [mergeGo, hm, he]

theorem mergeGo_spec (fuel : Nat) :
    ∀ (srcs : List Src),
    (∀ s ∈ srcs, SortedKeys s) →
    totalLen srcs ≤ fuel →
    SortedKeys (mergeGo fuel srcs) ∧
    (∀ k, k ∈ mapKeys (mergeGo fuel srcs) ↔ seqsFor srcs k ≠ []) ∧
    (∀ k e, (k, e) ∈ mergeGo fuel srcs →
        e.seq ∈ seqsFor srcs k ∧ ∀ q ∈ seqsFor srcs k, q ≤ e.seq) := by
  induction fuel with
  | zero =>
    intro srcs _hs hlen
    have hnil : ∀ s ∈ srcs, s = [] :=
      all_nil_of_totalLen_zero (Nat.le_zero.mp hlen)
    refine ⟨List.Pairwise.nil, ?_, ?_⟩
    · intro k
      constructor
      · intro hk
        exact absurd hk (List.not_mem_nil k)
      · intro hne
        exact absurd (seqsFor_nil_of_all_nil hnil k) hne
    · intro k e hmem
      exact absurd hmem (List.not_mem_nil (k, e))
  | succ fuel ih =>
    intro srcs hs hlen
    cases hm : minHead? srcs with
    | none =>
      have hnil := minHead_none_spec hm
      rw [mergeGo_none hm]
      refine ⟨List.Pairwise.nil, ?_, ?_⟩
      · intro k
        constructor
        · intro hk
          exact absurd hk (List.not_mem_nil k)
        · intro hne
          exact absurd (seqsFor_nil_of_all_nil hnil k) hne
      · intro k e hmem
        exact absurd hmem (List.not_mem_nil (k, e))
    | some m =>
      obtain ⟨hhead, hmin⟩ := minHead_spec hm
      obtain ⟨e, he⟩ := bestAt_some_of_head hhead
      rw [mergeGo_succ_some hm he]
      have hs' : ∀ s ∈ advanceAt srcs m, SortedKeys s := advanceAt_sorted hs
      have hlt : totalLen (advanceAt srcs m) < totalLen srcs :=
        totalLen_advanceAt_lt hhead
      have hlen' : totalLen (advanceAt srcs m) ≤ fuel := by omega
      obtain ⟨ihSorted, ihCov, ihMax⟩ := ih (advanceAt srcs m) hs' hlen'
      have hgt : ∀ k ∈ mapKeys (mergeGo fuel (advanceAt srcs m)), m < k := by
        intro k hk
        have hne := (ihCov k).mp hk
        obtain ⟨q, hq⟩ := List.exists_mem_of_ne_nil _ hne
        obtain ⟨s', hs'', e', hget, _⟩ := mem_seqsFor.mp hq
        exact advanceAt_keys_gt hs hmin s' hs'' k (mapGet_some_mem_keys hget)
      have heseq : e.seq ∈ seqsFor srcs m := by
        obtain ⟨s, hsmem, hsh⟩ := (bestAt_spec he).1
        exact mem_seqsFor.mpr ⟨s, hsmem, e, head_some_mapGet hsh, rfl⟩
      have hemax : ∀ q ∈ seqsFor srcs m, q ≤ e.seq := by
        intro q hq
        obtain ⟨s, hsmem, e', hget, hq'⟩ := mem_seqsFor.mp hq
        have hh : s.head? = some (m, e') :=
          mapGet_eq_head_of_min (hs s hsmem) hget
            (fun k e'' h => hmin s hsmem k e'' h)
        have := (bestAt_spec he).2 s hsmem e' hh
        omega
      have hmk : mapKeys ((m, e) :: mergeGo fuel (advanceAt srcs m)) =
          m :: mapKeys (mergeGo fuel (advanceAt srcs m)) := rfl
      refine ⟨?_, ?_, ?_⟩
      · show (mapKeys ((m, e) :: mergeGo fuel (advanceAt srcs m))).Pairwise
          (· < ·)
        rw [hmk]
        exact List.pairwise_cons.mpr ⟨hgt, ihSorted⟩
      · intro k
        rw [hmk, List.mem_cons]
        constructor
        · rintro (rfl | hk)
          · exact List.ne_nil_of_mem heseq
          · have hkm : k ≠ m := fun h =>
              absurd (h ▸ hgt k hk) (lt_irrefl m)
            rw [← seqsFor_advanceAt_ne srcs hkm]
            exact (ihCov k).mp hk
        · intro hne
          by_cases hkm : k = m
          · exact Or.inl hkm
          · refine Or.inr ((ihCov k).mpr ?_)
            rw [seqsFor_advanceAt_ne srcs hkm]
            exact hne
      · intro k e' hmem
        simp only [List.mem_cons] at hmem
        rcases hmem with hmem | hmem
        · have hk : k = m := congrArg Prod.fst hmem
          have hee : e' = e := congrArg Prod.snd hmem
          subst hk
          subst hee
          exact ⟨heseq, hemax⟩
        · have hk : k ∈ mapKeys (mergeGo fuel (advanceAt srcs m)) :=
            List.mem_map_of_mem Prod.fst hmem
          have hkm : k ≠ m := fun h =>
            absurd (h ▸ hgt k hk) (lt_irrefl m)
          rw [← seqsFor_advanceAt_ne srcs hkm]
          exact ihMax k e' hmem

/-- **C6.**  For a merge iterator over sorted readers, the emitted stream is
in strictly ascending key order (hence each distinct key is emitted exactly
once), a key is emitted iff some reader stores an entry for it, and the
emitted entry for a key carries the maximum sequence number stored for that
key across the readers that contain it. -/
theorem merge_dedup_correct (srcs : List Src)
    (hs : ∀ s ∈ srcs, SortedKeys s) :
    SortedKeys (mergeAll srcs) ∧
    (∀ k, k ∈ mapKeys (mergeAll srcs) ↔ seqsFor srcs k ≠ []) ∧
    (∀ k e, (k, e) ∈ mergeAll srcs →
        e.seq ∈ seqsFor srcs k ∧ ∀ q ∈ seqsFor srcs k, q ≤ e.seq) :=
  mergeGo_spec (totalLen srcs) srcs hs (le_refl _)

/-- Witness for C6: two singleton readers both holding key `[1]`, with seqs
4 and 9; the merge emits `[1]` once, with the seq-9 entry. -/
theorem merge_dedup_correct_witness :
    (∀ s ∈ c6srcs, SortedKeys s) ∧
    mergeAll c6srcs = [([1], ⟨9, some [8]⟩)] ∧
    SortedKeys (mergeAll c6srcs) ∧
    (∀ k e, (k, e) ∈ mergeAll c6srcs →
        e.seq ∈ seqsFor c6srcs k ∧ ∀ q ∈ seqsFor c6srcs k, q ≤ e.seq) := by
  have hsrc : ∀ s ∈ c6srcs, SortedKeys s := by
    intro s hsmem
    simp only [c6srcs, List.mem_cons, List.not_mem_nil, or_false] at hsmem
    rcases hsmem with h | h <;> (subst h; simp [SortedKeys, mapKeys])
  exact ⟨hsrc, rfl, (merge_dedup_correct c6srcs hsrc).1,
    (merge_dedup_correct c6srcs hsrc).2.2⟩

/-! ### C5 — SSTable write/read roundtrip

Plan: (1) the bloom filter never reports a false negative for an inserted
key; (2) the writer's data loop lays the records out contiguously with the
index pointing at each record's CRC prefix; (3) the footer, bloom and index
sections parse back to exactly what was written; (4) `SSTableReader::get`
at a parsed index offset re-reads the record byte-for-byte. -/

theorem getD_set_self : ∀ (l : List Nat) (i : Nat) (a d : Nat), i < l.length →
    (l.set i a).getD i d = a := by
  intro l
  induction l with
  | nil => intro i a d h; simp at h
  | cons x t ih =>
    intro i a d h
    cases i with
    | zero => rfl
    | succ n =>
      simp only [List.set_cons_succ, List.getD_cons_succ]
      exact ih n a d (by simpa using h)

theorem getD_set_ne : ∀ (l : List Nat) (i j : Nat), i ≠ j → ∀ (a d : Nat),
    (l.set i a).getD j d = l.getD j d := by
  intro l
  induction l with
  | nil => intro i j _ a d; rfl
  | cons x t ih =>
    intro i j hne a d
    cases i with
    | zero =>
      cases j with
      | zero => exact absurd rfl hne
      | succ m => rfl
    | succ n =>
      cases j with
      | zero => rfl
      | succ m =>
        simp only [List.set_cons_succ, List.getD_cons_succ]
        exact ih n m (fun h => hne (by rw [h])) a d

theorem set_of_le_length : ∀ (l : List Nat) (i : Nat), l.length ≤ i →
    ∀ a, l.set i a = l := by
  intro l
  induction l with
  | nil => intro i _ a; rfl
  | cons x t ih =>
    intro i h a
    cases i with
    | zero => simp at h
    | succ n =>
      simp only [List.set_cons_succ]
      rw [ih n (by simpa using h) a]

theorem testBit_iff_shiftRight_mod {x r : Nat} :
    x.testBit r = true ↔ x >>> r % 2 = 1 := by
  rw [Nat.testBit_to_div_mod, Nat.shiftRight_eq_div_pow]
  simp

theorem or_bit_mono {x y r : Nat} (h : x >>> r % 2 = 1) :
    (x ||| y) >>> r % 2 = 1 := by
  rw [← testBit_iff_shiftRight_mod] at h ⊢
  simp [Nat.testBit_or, h]

theorem or_shift_self (x r : Nat) : (x ||| 1 <<< r) >>> r % 2 = 1 := by
  rw [← testBit_iff_shiftRight_mod]
  have h1 : Nat.testBit 1 0 = true := rfl
  simp [Nat.testBit_or, Nat.testBit_shiftLeft, h1]

namespace BloomFilter

theorem set_bit_num_bits (bf : BloomFilter) (idx : Nat) :
    (bf.set_bit idx).num_bits = bf.num_bits := rfl

theorem set_bit_num_hashes (bf : BloomFilter) (idx : Nat) :
    (bf.set_bit idx).num_hashes = bf.num_hashes := rfl

theorem set_bit_bits_length (bf : BloomFilter) (idx : Nat) :
    (bf.set_bit idx).bits.length = bf.bits.length := by
  simp [set_bit]

theorem get_bit_set_bit_mono {bf : BloomFilter} {idx j : Nat}
    (h : bf.get_bit idx = true) : (bf.set_bit j).get_bit idx = true := by
  simp only [get_bit, set_bit, decide_eq_true_eq] at h ⊢
  by_cases hlen : bf.bits.length ≤ j / 8
  · rw [set_of_le_length bf.bits (j / 8) hlen]
    exact h
  · push_neg at hlen
    by_cases hij : idx / 8 = j / 8
    · rw [hij] at h ⊢
      rw [getD_set_self bf.bits (j / 8) _ 0 hlen]
      exact or_bit_mono h
    · rw [getD_set_ne bf.bits (j / 8) (idx / 8) (fun he => hij he.symm) _ 0]
      exact h

theorem get_bit_set_bit_self {bf : BloomFilter} {j : Nat}
    (hrange : j / 8 < bf.bits.length) : (bf.set_bit j).get_bit j = true := by
  simp only [get_bit, set_bit, decide_eq_true_eq]
  rw [getD_set_self bf.bits (j / 8) _ 0 hrange]
  exact or_shift_self _ _

theorem get_bit_index_lt {bf : BloomFilter} (hpos : 0 < bf.num_bits)
    (h1 h2 i : Nat) : bf.get_bit_index h1 h2 i < bf.num_bits :=
  Nat.mod_lt _ hpos

theorem get_bit_index_congr {bf bf' : BloomFilter}
    (h : bf.num_bits = bf'.num_bits) (h1 h2 i : Nat) :
    bf.get_bit_index h1 h2 i = bf'.get_bit_index h1 h2 i := by
  simp [get_bit_index, h]

theorem bloom_fold_num_bits (h1 h2 : Nat) : ∀ (is : List Nat) (bf : BloomFilter),
    (is.foldl (fun b i => b.set_bit (b.get_bit_index h1 h2 i)) bf).num_bits =
      bf.num_bits := by
  intro is
  induction is with
  | nil => intro bf; rfl
  | cons i t ih =>
    intro bf
    simp only [List.foldl_cons]
    exact ih _

theorem bloom_fold_num_hashes (h1 h2 : Nat) : ∀ (is : List Nat) (bf : BloomFilter),
    (is.foldl (fun b i => b.set_bit (b.get_bit_index h1 h2 i)) bf).num_hashes =
      bf.num_hashes := by
  intro is
  induction is with
  | nil => intro bf; rfl
  | cons i t ih =>
    intro bf
    simp only [List.foldl_cons]
    exact ih _

theorem bloom_fold_bits_length (h1 h2 : Nat) :
    ∀ (is : List Nat) (bf : BloomFilter),
    (is.foldl (fun b i => b.set_bit (b.get_bit_index h1 h2 i)) bf).bits.length =
      bf.bits.length := by
  intro is
  induction is with
  | nil => intro bf; rfl
  | cons i t ih =>
    intro bf
    simp only [List.foldl_cons]
    exact (ih _).trans (set_bit_bits_length bf _)

theorem bloom_fold_get_bit_mono (h1 h2 : Nat) :
    ∀ (is : List Nat) (bf : BloomFilter) (idx : Nat),
    bf.get_bit idx = true →
    (is.foldl (fun b i => b.set_bit (b.get_bit_index h1 h2 i)) bf).get_bit idx =
      true := by
  intro is
  induction is with
  | nil => intro bf idx h; exact h
  | cons i t ih =>
    intro bf idx h
    simp only [List.foldl_cons]
    exact ih _ idx (get_bit_set_bit_mono h)

theorem bloom_fold_sets_all (h1 h2 : Nat) :
    ∀ (is : List Nat) (bf : BloomFilter),
    bf.bits.length = (bf.num_bits + 7) / 8 → 0 < bf.num_bits →
    ∀ i ∈ is,
    (is.foldl (fun b j => b.set_bit (b.get_bit_index h1 h2 j)) bf).get_bit
      (bf.get_bit_index h1 h2 i) = true := by
  intro is
  induction is with
  | nil => intro bf _ _ i hi; cases hi
  | cons j t ih =>
    intro bf hlen hpos i hi
    simp only [List.foldl_cons]
    have hrange : bf.get_bit_index h1 h2 j / 8 < bf.bits.length := by
      have := get_bit_index_lt hpos h1 h2 j
      rw [hlen]
      omega
    rcases List.mem_cons.mp hi with hi | hi
    · subst hi
      exact bloom_fold_get_bit_mono h1 h2 t _ _ (get_bit_set_bit_self hrange)
    · have hnb : (bf.set_bit (bf.get_bit_index h1 h2 j)).num_bits = bf.num_bits :=
        rfl
      have hcongr := @get_bit_index_congr bf
        (bf.set_bit (bf.get_bit_index h1 h2 j)) hnb.symm h1 h2 i
      rw [hcongr]
      exact ih (bf.set_bit (bf.get_bit_index h1 h2 j))
        ((set_bit_bits_length bf _).trans hlen) hpos i hi

theorem insert_num_bits (bf : BloomFilter) (key : Bytes) :
    (bf.insert key).num_bits = bf.num_bits := by
  simp only [insert, hash_pair]
  exact bloom_fold_num_bits _ _ _ bf

theorem insert_num_hashes (bf : BloomFilter) (key : Bytes) :
    (bf.insert key).num_hashes = bf.num_hashes := by
  simp only [insert, hash_pair]
  exact bloom_fold_num_hashes _ _ _ bf

theorem insert_bits_length (bf : BloomFilter) (key : Bytes) :
    (bf.insert key).bits.length = bf.bits.length := by
  simp only [insert, hash_pair]
  exact bloom_fold_bits_length _ _ _ bf

theorem may_contain_insert_self {bf : BloomFilter}
    (hlen : bf.bits.length = (bf.num_bits + 7) / 8) (hpos : 0 < bf.num_bits)
    (key : Bytes) : (bf.insert key).may_contain key = true := by
  simp only [insert, may_contain, hash_pair]
  rw [List.all_eq_true]
  intro i hi
  rw [bloom_fold_num_hashes _ _ _ bf] at hi
  rw [get_bit_index_congr (bloom_fold_num_bits _ _ _ bf)]
  exact bloom_fold_sets_all _ _ _ bf hlen hpos i hi

theorem may_contain_insert_mono {bf : BloomFilter} {key : Bytes}
    (h : bf.may_contain key = true) (key2 : Bytes) :
    (bf.insert key2).may_contain key = true := by
  simp only [may_contain, hash_pair] at h ⊢
  simp only [insert, hash_pair]
  rw [List.all_eq_true] at h ⊢
  intro i hi
  rw [bloom_fold_num_hashes _ _ _ bf] at hi
  rw [get_bit_index_congr (bloom_fold_num_bits _ _ _ bf)]
  exact bloom_fold_get_bit_mono _ _ _ bf _ (h i hi)

theorem foldl_insert_num_bits (entries : List (Bytes × ValueEntry)) :
    ∀ bf : BloomFilter,
    (entries.foldl (fun b p => b.insert p.1) bf).num_bits = bf.num_bits := by
  induction entries with
  | nil => intro bf; rfl
  | cons q t ih =>
    intro bf
    simp only [List.foldl_cons]
    exact (ih _).trans (insert_num_bits bf q.1)

theorem foldl_insert_num_hashes (entries : List (Bytes × ValueEntry)) :
    ∀ bf : BloomFilter,
    (entries.foldl (fun b p => b.insert p.1) bf).num_hashes = bf.num_hashes := by
  induction entries with
  | nil => intro bf; rfl
  | cons q t ih =>
    intro bf
    simp only [List.foldl_cons]
    exact (ih _).trans (insert_num_hashes bf q.1)

theorem foldl_insert_bits_length (entries : List (Bytes × ValueEntry)) :
    ∀ bf : BloomFilter,
    (entries.foldl (fun b p => b.insert p.1) bf).bits.length = bf.bits.length := by
  induction entries with
  | nil => intro bf; rfl
  | cons q t ih =>
    intro bf
    simp only [List.foldl_cons]
    exact (ih _).trans (insert_bits_length bf q.1)

theorem foldl_insert_may_contain (entries : List (Bytes × ValueEntry)) :
    ∀ (bf : BloomFilter) (key : Bytes), bf.may_contain key = true →
    (entries.foldl (fun b p => b.insert p.1) bf).may_contain key = true := by
  induction entries with
  | nil => intro bf key h; exact h
  | cons q t ih =>
    intro bf key h
    simp only [List.foldl_cons]
    exact ih _ key (may_contain_insert_mono h q.1)

theorem foldl_insert_contains (entries : List (Bytes × ValueEntry)) :
    ∀ (bf : BloomFilter),
    bf.bits.length = (bf.num_bits + 7) / 8 → 0 < bf.num_bits →
    ∀ p ∈ entries,
    (entries.foldl (fun b q => b.insert q.1) bf).may_contain p.1 = true := by
  induction entries with
  | nil => intro bf _ _ p hp; cases hp
  | cons q t ih =>
    intro bf hlen hpos p hp
    simp only [List.foldl_cons]
    rcases List.mem_cons.mp hp with hp | hp
    · subst hp
      exact foldl_insert_may_contain t _ _ (may_contain_insert_self hlen hpos p.1)
    · exact ih (bf.insert q.1)
        (by rw [insert_bits_length, insert_num_bits]; exact hlen)
        (by rw [insert_num_bits]; exact hpos) p hp

theorem read_from_write_to (bf : BloomFilter) (rest : Bytes)
    (hnb : bf.num_bits < U64_LIMIT)
    (hnh : bf.num_hashes < 2 ^ 32)
    (hblen : bf.bits.length ≤ 128 * 1024 * 1024) :
    BloomFilter.read_from (bf.write_to ++ rest) = some bf := by
  have hb32 : bf.bits.length < 2 ^ 32 := by omega
  simp only [write_to, read_from, List.append_assoc,
    readU64_u64le _ hnb, readU32_u32le _ hnh, readU32_u32le _ hb32,
    take_len_append]
  rw [if_neg (by omega), if_neg (by simp)]

end BloomFilter

theorem encodeSstBody_length (k : Bytes) (e : ValueEntry) :
    (encodeSstBody k e).length =
      match e.value with
      | some v => 17 + k.length + v.length
      | none => 13 + k.length := by
  cases hv : e.value with
  | some v =>
    simp only [encodeSstBody, hv, List.length_append, u32le_length, u64le_length,
      List.length_cons]
    omega
  | none =>
    simp only [encodeSstBody, hv, List.length_append, u32le_length, u64le_length,
      List.length_cons, List.length_nil]
    omega

theorem encodeSstRecord_length (k : Bytes) (e : ValueEntry) :
    (encodeSstRecord k e).length = 4 + (encodeSstBody k e).length := by
  simp only [encodeSstRecord, List.length_append, u32le_length]

theorem writeAcc_data (entries : List (Bytes × ValueEntry)) :
    ∀ (acc : WriterAcc),
    (entries.foldl
      (fun acc p =>
        { data := acc.data ++ encodeSstRecord p.1 p.2,
          bloom := acc.bloom.insert p.1,
          index := acc.index ++ [(p.1, acc.data.length)],
          maxSeq := max acc.maxSeq p.2.seq }) acc).data =
      acc.data ++ (entries.map fun p => encodeSstRecord p.1 p.2).flatten := by
  induction entries with
  | nil => intro acc; simp
  | cons p t ih =>
    intro acc
    simp only [List.foldl_cons, List.map_cons, List.flatten_cons]
    rw [ih]
    simp [List.append_assoc]

theorem writeAcc_bloom (entries : List (Bytes × ValueEntry)) :
    ∀ (acc : WriterAcc),
    (entries.foldl
      (fun acc p =>
        { data := acc.data ++ encodeSstRecord p.1 p.2,
          bloom := acc.bloom.insert p.1,
          index := acc.index ++ [(p.1, acc.data.length)],
          maxSeq := max acc.maxSeq p.2.seq }) acc).bloom =
      entries.foldl (fun b p => b.insert p.1) acc.bloom := by
  induction entries with
  | nil => intro acc; rfl
  | cons p t ih =>
    intro acc
    simp only [List.foldl_cons]
    exact ih _

theorem writeAcc_maxSeq_lt (entries : List (Bytes × ValueEntry)) :
    ∀ (acc : WriterAcc), acc.maxSeq < U64_LIMIT →
    (∀ p ∈ entries, p.2.seq < U64_LIMIT) →
    (entries.foldl
      (fun acc p =>
        { data := acc.data ++ encodeSstRecord p.1 p.2,
          bloom := acc.bloom.insert p.1,
          index := acc.index ++ [(p.1, acc.data.length)],
          maxSeq := max acc.maxSeq p.2.seq }) acc).maxSeq < U64_LIMIT := by
  induction entries with
  | nil => intro acc h _; exact h
  | cons p t ih =>
    intro acc h hall
    simp only [List.foldl_cons]
    refine ih _ ?_ fun q hq => hall q (List.mem_cons_of_mem _ hq)
    exact max_lt h (hall p (List.mem_cons_self p t))

theorem writeAcc_index_prefix (entries : List (Bytes × ValueEntry)) :
    ∀ (acc : WriterAcc), ∃ tail,
    (entries.foldl
      (fun acc p =>
        { data := acc.data ++ encodeSstRecord p.1 p.2,
          bloom := acc.bloom.insert p.1,
          index := acc.index ++ [(p.1, acc.data.length)],
          maxSeq := max acc.maxSeq p.2.seq }) acc).index = acc.index ++ tail := by
  induction entries with
  | nil => intro acc; exact ⟨[], by simp⟩
  | cons p t ih =>
    intro acc
    simp only [List.foldl_cons]
    obtain ⟨tail, htail⟩ := ih
      { data := acc.data ++ encodeSstRecord p.1 p.2,
        bloom := acc.bloom.insert p.1,
        index := acc.index ++ [(p.1, acc.data.length)],
        maxSeq := max acc.maxSeq p.2.seq }
    exact ⟨(p.1, acc.data.length) :: tail, by
      rw [htail]
      simp [List.append_assoc]⟩

theorem writeAcc_index_keys (entries : List (Bytes × ValueEntry)) :
    ∀ (acc : WriterAcc),
    mapKeys (entries.foldl
      (fun acc p =>
        { data := acc.data ++ encodeSstRecord p.1 p.2,
          bloom := acc.bloom.insert p.1,
          index := acc.index ++ [(p.1, acc.data.length)],
          maxSeq := max acc.maxSeq p.2.seq }) acc).index =
      mapKeys acc.index ++ entries.map Prod.fst := by
  induction entries with
  | nil => intro acc; simp
  | cons p t ih =>
    intro acc
    simp only [List.foldl_cons, List.map_cons]
    rw [ih]
    simp [mapKeys, List.map_append]

theorem writeAcc_lookup (entries : List (Bytes × ValueEntry)) :
    ∀ (acc : WriterAcc) (k : Bytes) (e : ValueEntry), (k, e) ∈ entries →
    ∃ off rest,
      (k, off) ∈ (entries.foldl
        (fun acc p =>
          { data := acc.data ++ encodeSstRecord p.1 p.2,
            bloom := acc.bloom.insert p.1,
            index := acc.index ++ [(p.1, acc.data.length)],
            maxSeq := max acc.maxSeq p.2.seq }) acc).index ∧
      (entries.foldl
        (fun acc p =>
          { data := acc.data ++ encodeSstRecord p.1 p.2,
            bloom := acc.bloom.insert p.1,
            index := acc.index ++ [(p.1, acc.data.length)],
            maxSeq := max acc.maxSeq p.2.seq }) acc).data.drop off =
        encodeSstRecord k e ++ rest := by
  induction entries with
  | nil => intro acc k e h; cases h
  | cons p t ih =>
    intro acc k e hmem
    simp only [List.foldl_cons]
    rcases List.mem_cons.mp hmem with hmem | hmem
    · obtain ⟨pk, pe⟩ := p
      injection hmem with h1 h2
      subst h1
      subst h2
      refine ⟨acc.data.length, (t.map fun p => encodeSstRecord p.1 p.2).flatten,
        ?_, ?_⟩
      · obtain ⟨tail, htail⟩ := writeAcc_index_prefix t
          { data := acc.data ++ encodeSstRecord k e,
            bloom := acc.bloom.insert k,
            index := acc.index ++ [(k, acc.data.length)],
            maxSeq := max acc.maxSeq e.seq }
        rw [htail]
        simp
      · rw [writeAcc_data t]
        show ((acc.data ++ encodeSstRecord k e) ++
            (t.map fun p => encodeSstRecord p.1 p.2).flatten).drop
            acc.data.length = _
        rw [List.append_assoc, drop_len_append]
    · exact ih _ k e hmem

theorem mapGet_mem_sorted {α : Type} :
    ∀ {l : List (Bytes × α)}, SortedKeys l →
    ∀ {k : Bytes} {v : α}, (k, v) ∈ l → mapGet l k = some v := by
  intro l
  induction l with
  | nil => intro _ k v h; cases h
  | cons p t ih =>
    intro hs k v h
    obtain ⟨k0, v0⟩ := p
    simp only [SortedKeys, mapKeys, List.map_cons, List.pairwise_cons] at hs
    rcases List.mem_cons.mp h with h | h
    · injection h with h1 h2
      subst h1
      subst h2
      simp [mapGet]
    · have hk : k ∈ mapKeys t := List.mem_map_of_mem Prod.fst h
      have hne : k ≠ k0 := fun he => absurd (he ▸ hs.1 k hk) (lt_irrefl k0)
      simp only [mapGet, if_neg hne]
      exact ih hs.2 h

theorem mapInsert_append_of_gt {α : Type} :
    ∀ (l : List (Bytes × α)) (k : Bytes) (v : α),
    (∀ x ∈ mapKeys l, x < k) → mapInsert l k v = l ++ [(k, v)] := by
  intro l
  induction l with
  | nil => intro k v _; rfl
  | cons p t ih =>
    intro k v h
    obtain ⟨k0, v0⟩ := p
    have h0 : k0 < k := h k0 (by simp [mapKeys])
    have hnlt : ¬ k < k0 := not_lt_of_gt h0
    have hne : ¬ k = k0 := fun he => absurd (he ▸ h0) (lt_irrefl _)
    simp only [mapInsert, if_neg hnlt, if_neg hne, List.cons_append]
    rw [ih k v fun x hx => h x (List.mem_cons_of_mem _ hx)]

theorem foldl_mapInsert_sorted {α : Type} :
    ∀ (ind acc : List (Bytes × α)),
    SortedKeys (acc ++ ind) →
    ind.foldl (fun a p => mapInsert a p.1 p.2) acc = acc ++ ind := by
  intro ind
  induction ind with
  | nil => intro acc _; simp
  | cons p t ih =>
    intro acc hs
    obtain ⟨k, v⟩ := p
    simp only [List.foldl_cons]
    have hlt : ∀ x ∈ mapKeys acc, x < k := by
      simp only [SortedKeys, mapKeys, List.map_append, List.pairwise_append] at hs
      intro x hx
      exact hs.2.2 x hx k (by simp)
    have hstep : mapInsert acc k v = acc ++ [(k, v)] :=
      mapInsert_append_of_gt acc k v hlt
    have hassoc : (acc ++ [(k, v)]) ++ t = acc ++ (k, v) :: t := by simp
    rw [hstep, ih (acc ++ [(k, v)]) (by rw [hassoc]; exact hs), hassoc]

theorem drop_len_append_add {α : Type} (l₁ l₂ : List α) (n : Nat) :
    (l₁ ++ l₂).drop (l₁.length + n) = l₂.drop n := by
  induction l₁ with
  | nil => simp
  | cons a t ih =>
    simp only [List.cons_append, List.length_cons]
    have h : t.length + 1 + n = (t.length + n) + 1 := by omega
    rw [h, List.drop_succ_cons]
    exact ih

theorem parseIndexGo_roundtrip (ind : List (Bytes × Nat)) :
    ∀ (fuel pos boundary : Nat) (acc : List (Bytes × Nat)) (file post : Bytes),
    (∀ p ∈ ind, p.1.length ≤ MAX_KEY_SIZE) →
    (∀ p ∈ ind, p.2 < U64_LIMIT) →
    file.drop pos = encodeSstIndex ind ++ post →
    pos + (encodeSstIndex ind).length = boundary →
    ind.length < fuel →
    parseIndexGo fuel file pos boundary acc =
      some (ind.foldl (fun a p => mapInsert a p.1 p.2) acc) := by
  induction ind with
  | nil =>
    intro fuel pos boundary acc file post _ _ _ hpos hfuel
    cases fuel with
    | zero => omega
    | succ n =>
      have h0 : (encodeSstIndex ([] : List (Bytes × Nat))).length = 0 := rfl
      rw [h0] at hpos
      simp only [parseIndexGo]
      rw [if_neg (by omega)]
      rfl
  | cons p t ih =>
    intro fuel pos boundary acc file post hkeys hoffs hdrop hpos hfuel
    obtain ⟨k, off⟩ := p
    cases fuel with
    | zero => simp at hfuel
    | succ n =>
      have hK : MAX_KEY_SIZE = 65536 := rfl
      have hk : k.length ≤ MAX_KEY_SIZE := hkeys (k, off) (List.mem_cons_self _ _)
      have hk32 : k.length < 2 ^ 32 := by omega
      have hoff : off < U64_LIMIT := hoffs (k, off) (List.mem_cons_self _ _)
      have henc : encodeSstIndex ((k, off) :: t) ++ post =
          u32le k.length ++ (k ++ (u64le off ++ (encodeSstIndex t ++ post))) := by
        simp [encodeSstIndex, List.append_assoc]
      rw [henc] at hdrop
      have hlen1 : (encodeSstIndex ((k, off) :: t)).length =
          12 + k.length + (encodeSstIndex t).length := by
        simp only [encodeSstIndex, List.map_cons, List.flatten_cons,
          List.length_append, u32le_length, u64le_length]
        omega
      simp only [parseIndexGo]
      rw [if_pos (by rw [← hpos, hlen1]; omega)]
      rw [hdrop, readU32_u32le _ hk32]
      dsimp only
      rw [if_neg (by omega)]
      rw [if_neg (by simp only [List.length_append]; omega)]
      rw [take_len_append, drop_len_append, readU64_u64le _ hoff]
      dsimp only
      have harith : pos + 4 + k.length + 8 = pos + (4 + (k.length + 8)) := by
        omega
      have hdrop' : file.drop (pos + 4 + k.length + 8) =
          encodeSstIndex t ++ post := by
        rw [harith, ← List.drop_drop, hdrop]
        have e1 := drop_len_append_add (u32le k.length)
          (k ++ (u64le off ++ (encodeSstIndex t ++ post))) (k.length + 8)
        rw [u32le_length] at e1
        rw [e1]
        have e2 := drop_len_append_add k
          (u64le off ++ (encodeSstIndex t ++ post)) 8
        rw [e2]
        have e3 := drop_len_append (u64le off) (encodeSstIndex t ++ post)
        rw [u64le_length] at e3
        rw [e3]
      have hpos' : (pos + 4 + k.length + 8) + (encodeSstIndex t).length =
          boundary := by
        rw [← hpos, hlen1]
        omega
      have hfuel' : t.length < n := by
        simp only [List.length_cons] at hfuel
        omega
      rw [ih n (pos + 4 + k.length + 8) boundary (mapInsert acc k off) file post
        (fun q hq => hkeys q (List.mem_cons_of_mem _ hq))
        (fun q hq => hoffs q (List.mem_cons_of_mem _ hq))
        hdrop' hpos' hfuel']
      rfl

theorem readFooter_v3 (pre : Bytes) (a b c : Nat)
    (ha : a < U64_LIMIT) (hb : b < U64_LIMIT) (hc : c < U64_LIMIT) :
    readFooterVersioned (pre ++ encodeFooterV3 a b c) =
      some (Footer.v3 a b c) := by
  have hmagic32 : SSTABLE_MAGIC_V3 < 2 ^ 32 := by norm_num [SSTABLE_MAGIC_V3]
  have hlen : (pre ++ encodeFooterV3 a b c).length = pre.length + 28 := by
    simp [encodeFooterV3, List.length_append, u64le_length, u32le_length]
  have hsplit4 : pre ++ encodeFooterV3 a b c =
      (pre ++ (u64le a ++ (u64le b ++ u64le c))) ++ u32le SSTABLE_MAGIC_V3 := by
    simp [encodeFooterV3, List.append_assoc]
  have hlen4 : (pre ++ encodeFooterV3 a b c).length - 4 =
      (pre ++ (u64le a ++ (u64le b ++ u64le c))).length := by
    rw [hlen]
    simp only [List.length_append, u64le_length]
    omega
  have hdrop4 : (pre ++ encodeFooterV3 a b c).drop
      ((pre ++ encodeFooterV3 a b c).length - 4) = u32le SSTABLE_MAGIC_V3 := by
    rw [hlen4]
    conv_lhs => rw [hsplit4]
    exact drop_len_append _ _
  have hsplit28 : pre ++ encodeFooterV3 a b c =
      pre ++ (u64le a ++ (u64le b ++ (u64le c ++ u32le SSTABLE_MAGIC_V3))) := by
    simp [encodeFooterV3, List.append_assoc]
  have hlen28 : (pre ++ encodeFooterV3 a b c).length - 28 = pre.length := by
    rw [hlen]
    omega
  have hdrop28 : (pre ++ encodeFooterV3 a b c).drop
      ((pre ++ encodeFooterV3 a b c).length - 28) =
      u64le a ++ (u64le b ++ (u64le c ++ u32le SSTABLE_MAGIC_V3)) := by
    rw [hlen28]
    conv_lhs => rw [hsplit28]
    exact drop_len_append _ _
  simp only [readFooterVersioned, hdrop4, readU32_u32le _ hmagic32, hdrop28,
    readU64_u64le _ ha, readU64_u64le _ hb, readU64_u64le _ hc,
    eq_self_iff_true, if_true]
  rw [if_neg (by rw [hlen]; omega), if_neg (by rw [hlen]; omega)]
  have hm : readU32? (u32le SSTABLE_MAGIC_V3) = some (SSTABLE_MAGIC_V3, []) := rfl
  rw [hm]
  dsimp only
  rw [if_pos rfl]

theorem sstGet_record (r : SSTReader) (key : Bytes) (es : Nat) (ev : Option Bytes)
    (off : Nat) (rest : Bytes)
    (hidx : mapGet r.index key = some off)
    (hcrc : r.footer.has_checksums = true)
    (hbloom : ∀ bf, r.bloom = some bf → bf.may_contain key = true)
    (hdrop : r.file.drop off = encodeSstRecord key ⟨es, ev⟩ ++ rest)
    (hklen : key.length ≤ MAX_KEY_SIZE)
    (hseq : es < U64_LIMIT)
    (hval : ∀ v, ev = some v → v.length ≤ MAX_VALUE_SIZE) :
    sstGet r key = Except.ok (some ⟨es, ev⟩) := by
  have hK : MAX_KEY_SIZE = 65536 := rfl
  have hV : MAX_VALUE_SIZE = 10485760 := rfl
  have hk32 : key.length < 2 ^ 32 := by omega
  cases ev with
  | some v =>
    have hvmax : v.length ≤ MAX_VALUE_SIZE := hval v rfl
    have hv32 : v.length < 2 ^ 32 := by omega
    have hrec : encodeSstRecord key ⟨es, some v⟩ ++ rest =
        u32le (crc32 (encodeSstBody key ⟨es, some v⟩)) ++
          (encodeSstBody key ⟨es, some v⟩ ++ rest) := by
      simp [encodeSstRecord, List.append_assoc]
    have hbody : encodeSstBody key ⟨es, some v⟩ ++ rest =
        u32le key.length ++ (key ++ (u64le es ++
          (1 :: (u32le v.length ++ (v ++ rest))))) := by
      simp [encodeSstBody, List.append_assoc]
    have hb2 : u32le key.length ++ key ++ u64le es ++
        1 :: (u32le v.length ++ v) = encodeSstBody key ⟨es, some v⟩ := by
      simp [encodeSstBody]
    simp only [sstGet, hidx]
    rw [hdrop, hrec, if_pos hcrc, readU32_u32le _ (crc32_lt _)]
    dsimp only
    rw [hbody, readU32_u32le _ hk32]
    dsimp only
    rw [if_neg (by omega)]
    rw [if_neg (by simp only [List.length_append]; omega)]
    rw [take_len_append, drop_len_append]
    rw [if_neg (fun h => h rfl)]
    rw [readU64_u64le _ hseq]
    dsimp only
    rw [readU8_cons]
    dsimp only
    rw [if_pos rfl, readU32_u32le _ hv32]
    dsimp only
    rw [if_neg (by omega)]
    rw [if_neg (by simp only [List.length_append]; omega)]
    rw [take_len_append]
    dsimp only
    rw [if_neg (fun h => h (congrArg crc32 hb2))]
    cases hb : r.bloom with
    | none => rfl
    | some bf =>
      dsimp only
      rw [hbloom bf hb]
      simp
  | none =>
    have hrec : encodeSstRecord key ⟨es, none⟩ ++ rest =
        u32le (crc32 (encodeSstBody key ⟨es, none⟩)) ++
          (encodeSstBody key ⟨es, none⟩ ++ rest) := by
      simp [encodeSstRecord, List.append_assoc]
    have hbody : encodeSstBody key ⟨es, none⟩ ++ rest =
        u32le key.length ++ (key ++ (u64le es ++ (0 :: rest))) := by
      simp [encodeSstBody, List.append_assoc]
    have hb2 : u32le key.length ++ key ++ u64le es ++ 0 :: [] =
        encodeSstBody key ⟨es, none⟩ := by
      simp [encodeSstBody]
    simp only [sstGet, hidx]
    rw [hdrop, hrec, if_pos hcrc, readU32_u32le _ (crc32_lt _)]
    dsimp only
    rw [hbody, readU32_u32le _ hk32]
    dsimp only
    rw [if_neg (by omega)]
    rw [if_neg (by simp only [List.length_append]; omega)]
    rw [take_len_append, drop_len_append]
    rw [if_neg (fun h => h rfl)]
    rw [readU64_u64le _ hseq]
    dsimp only
    rw [readU8_cons]
    dsimp only
    rw [if_neg (by omega)]
    dsimp only
    rw [if_neg (fun h => h (congrArg crc32 hb2))]
    cases hb : r.bloom with
    | none => rfl
    | some bf =>
      dsimp only
      rw [hbloom bf hb]
      simp

theorem writeAcc_index_offsets (entries : List (Bytes × ValueEntry)) :
    ∀ (acc : WriterAcc), (∀ q ∈ acc.index, q.2 ≤ acc.data.length) →
    ∀ q ∈ (entries.foldl
      (fun acc p =>
        { data := acc.data ++ encodeSstRecord p.1 p.2,
          bloom := acc.bloom.insert p.1,
          index := acc.index ++ [(p.1, acc.data.length)],
          maxSeq := max acc.maxSeq p.2.seq }) acc).index,
      q.2 ≤ (entries.foldl
      (fun acc p =>
        { data := acc.data ++ encodeSstRecord p.1 p.2,
          bloom := acc.bloom.insert p.1,
          index := acc.index ++ [(p.1, acc.data.length)],
          maxSeq := max acc.maxSeq p.2.seq }) acc).data.length := by
  induction entries with
  | nil => intro acc h q hq; exact h q hq
  | cons p t ih =>
    intro acc h
    simp only [List.foldl_cons]
    refine ih _ ?_
    intro q hq
    dsimp only at hq ⊢
    rcases List.mem_append.mp hq with hq | hq
    · have := h q hq
      simp only [List.length_append]
      omega
    · simp only [List.mem_singleton] at hq
      subst hq
      dsimp only
      simp only [List.length_append]
      omega

theorem recsOf_len_ge (entries : List (Bytes × ValueEntry)) :
    entries.length ≤
      ((entries.map fun p => encodeSstRecord p.1 p.2).flatten).length := by
  induction entries with
  | nil => simp
  | cons p t ih =>
    simp only [List.map_cons, List.flatten_cons, List.length_append,
      List.length_cons]
    have h := encodeSstRecord_length p.1 p.2
    omega

theorem encodeFooterV3_length (a b c : Nat) :
    (encodeFooterV3 a b c).length = 28 := by
  simp [encodeFooterV3, List.length_append, u64le_length, u32le_length]

theorem writeInternal_roundtrip (m k : Nat) (entries : List (Bytes × ValueEntry))
    (hsort : SortedKeys entries)
    (hne : entries ≠ [])
    (hkeys : ∀ p ∈ entries, p.1.length ≤ MAX_KEY_SIZE)
    (hvals : ∀ p ∈ entries, ∀ v, p.2.value = some v → v.length ≤ MAX_VALUE_SIZE)
    (hseqs : ∀ p ∈ entries, p.2.seq < U64_LIMIT)
    (hm : 0 < m) (hmcap : (m + 7) / 8 ≤ 128 * 1024 * 1024) (hk : k < 2 ^ 32) :
    ∃ file, writeInternal m k entries = some file ∧
      (file.length < U64_LIMIT →
        ∃ r, sstOpen file = some r ∧
          ∀ p ∈ entries, sstGet r p.1 = Except.ok (some p.2)) := by
  have hdata0 := writeAcc_data entries ⟨[], BloomFilter.bloomNew m k, [], 0⟩
  have hbloom0 := writeAcc_bloom entries ⟨[], BloomFilter.bloomNew m k, [], 0⟩
  have hkeys0 := writeAcc_index_keys entries ⟨[], BloomFilter.bloomNew m k, [], 0⟩
  have hmax0 := writeAcc_maxSeq_lt entries ⟨[], BloomFilter.bloomNew m k, [], 0⟩
    (by norm_num [U64_LIMIT]) hseqs
  have hoff0 := writeAcc_index_offsets entries ⟨[], BloomFilter.bloomNew m k, [], 0⟩
    (by intro q hq; cases hq)
  have hlook0 := writeAcc_lookup entries
  set F := entries.foldl
      (fun acc p =>
        { data := acc.data ++ encodeSstRecord p.1 p.2,
          bloom := acc.bloom.insert p.1,
          index := acc.index ++ [(p.1, acc.data.length)],
          maxSeq := max acc.maxSeq p.2.seq })
      (⟨[], BloomFilter.bloomNew m k, [], 0⟩ : WriterAcc) with hFdef
  dsimp only at hdata0 hbloom0 hkeys0
  have hmk0 : mapKeys ([] : List (Bytes × Nat)) = [] := rfl
  rw [hmk0, List.nil_append] at hkeys0
  have hIndKeys : mapKeys F.index = entries.map Prod.fst := by
    rw [hkeys0]
  have hne' : F.index ≠ [] := by
    intro h0
    rw [h0] at hIndKeys
    have : entries.map Prod.fst = [] := hIndKeys.symm
    exact hne (List.map_eq_nil_iff.mp this)
  have hSortInd : SortedKeys F.index := by
    show (mapKeys F.index).Pairwise (· < ·)
    rw [hIndKeys]
    exact hsort
  have hwrite : writeInternal m k entries =
      some (F.data ++ F.bloom.write_to ++ encodeSstIndex F.index ++
        encodeFooterV3 F.maxSeq F.data.length
          (F.data.length + F.bloom.write_to.length)) := by
    simp only [writeInternal, writeDataLoop]
    rw [← hFdef]
    have hie : ¬ (F.index.isEmpty = true) := by
      cases hc : F.index with
      | nil => exact absurd hc hne'
      | cons a l => simp
    rw [if_neg hie]
  refine ⟨_, hwrite, ?_⟩
  intro hflen
  have hBnb : F.bloom.num_bits = m := by
    rw [hbloom0, BloomFilter.foldl_insert_num_bits]
    rfl
  have hBnh : F.bloom.num_hashes = k := by
    rw [hbloom0, BloomFilter.foldl_insert_num_hashes]
    rfl
  have hBbits : F.bloom.bits.length = (m + 7) / 8 := by
    rw [hbloom0, BloomFilter.foldl_insert_bits_length]
    simp [BloomFilter.bloomNew]
  have hBcontains : ∀ p ∈ entries, F.bloom.may_contain p.1 = true := by
    intro p hp
    rw [hbloom0]
    exact BloomFilter.foldl_insert_contains entries (BloomFilter.bloomNew m k)
      (by simp [BloomFilter.bloomNew]) hm p hp
  set D := F.data with hDdef
  set W := F.bloom.write_to with hWdef
  set IX := encodeSstIndex F.index with hIXdef
  set FT := encodeFooterV3 F.maxSeq D.length (D.length + W.length) with hFTdef
  have hFT28 : FT.length = 28 := by
    rw [hFTdef]
    exact encodeFooterV3_length _ _ _
  have hlenfile : (D ++ W ++ IX ++ FT).length =
      D.length + W.length + IX.length + 28 := by
    simp only [List.length_append, hFT28]
  have hfooter : readFooterVersioned (D ++ W ++ IX ++ FT) =
      some (Footer.v3 F.maxSeq D.length (D.length + W.length)) := by
    rw [hFTdef]
    exact readFooter_v3 (D ++ W ++ IX) F.maxSeq D.length (D.length + W.length)
      hmax0 (by rw [hlenfile] at hflen; omega) (by rw [hlenfile] at hflen; omega)
  have hdropD : (D ++ W ++ IX ++ FT).drop D.length = W ++ (IX ++ FT) := by
    have h1 : D ++ W ++ IX ++ FT = D ++ (W ++ (IX ++ FT)) := by
      simp [List.append_assoc]
    rw [h1, drop_len_append]
  have hbloomread : BloomFilter.read_from ((D ++ W ++ IX ++ FT).drop D.length) =
      some F.bloom := by
    rw [hdropD, hWdef]
    exact BloomFilter.read_from_write_to F.bloom (IX ++ FT)
      (by rw [hBnb]; have := hmcap; unfold U64_LIMIT; omega)
      (by rw [hBnh]; exact hk)
      (by rw [hBbits]; omega)
  have hdropIdx : (D ++ W ++ IX ++ FT).drop (D.length + W.length) = IX ++ FT := by
    have h1 : D ++ W ++ IX ++ FT = (D ++ W) ++ (IX ++ FT) := by
      simp [List.append_assoc]
    have h2 : D.length + W.length = (D ++ W).length := by
      simp [List.length_append]
    rw [h2, h1, drop_len_append]
  have hindkeys' : ∀ p ∈ F.index, p.1.length ≤ MAX_KEY_SIZE := by
    intro p hp
    have hpk : p.1 ∈ mapKeys F.index := List.mem_map_of_mem Prod.fst hp
    rw [hIndKeys] at hpk
    obtain ⟨q, hq, hq1⟩ := List.mem_map.mp hpk
    rw [← hq1]
    exact hkeys q hq
  have hindoffs' : ∀ p ∈ F.index, p.2 < U64_LIMIT := by
    intro p hp
    have := hoff0 p hp
    rw [hlenfile] at hflen
    omega
  have hindlen : F.index.length = entries.length := by
    have h1 : (mapKeys F.index).length = (entries.map Prod.fst).length := by
      rw [hIndKeys]
    simpa [mapKeys, List.length_map] using h1
  have hdataC : D = (entries.map fun p => encodeSstRecord p.1 p.2).flatten := by
    rw [hdata0]
    simp
  have hfuel : F.index.length < (D ++ W ++ IX ++ FT).length + 1 := by
    rw [hlenfile, hindlen]
    have h1 := recsOf_len_ge entries
    rw [← hdataC] at h1
    omega
  have hparse : parseIndexGo ((D ++ W ++ IX ++ FT).length + 1) (D ++ W ++ IX ++ FT)
      (D.length + W.length) ((D ++ W ++ IX ++ FT).length - 28) [] =
      some F.index := by
    rw [parseIndexGo_roundtrip F.index ((D ++ W ++ IX ++ FT).length + 1)
      (D.length + W.length) ((D ++ W ++ IX ++ FT).length - 28) []
      (D ++ W ++ IX ++ FT) FT hindkeys' hindoffs'
      (by rw [hdropIdx, hIXdef])
      (by rw [hlenfile, hIXdef]; omega)
      hfuel]
    rw [foldl_mapInsert_sorted F.index [] (by rw [List.nil_append]; exact hSortInd)]
    rw [List.nil_append]
  refine ⟨⟨F.index, some F.bloom, D ++ W ++ IX ++ FT,
    Footer.v3 F.maxSeq D.length (D.length + W.length)⟩, ?_, ?_⟩
  · simp only [sstOpen]
    rw [if_neg (by rw [hlenfile]; omega)]
    rw [hfooter]
    dsimp only [Footer.index_offset, Footer.bloom_offset, Footer.footer_size]
    rw [if_neg (by rw [hlenfile]; omega)]
    rw [hbloomread]
    dsimp only
    rw [hparse]
  · intro p hp
    obtain ⟨off, rest0, hoffmem, hdroprec⟩ :=
      hlook0 ⟨[], BloomFilter.bloomNew m k, [], 0⟩ p.1 p.2 hp
    have hidx : mapGet F.index p.1 = some off :=
      mapGet_mem_sorted hSortInd hoffmem
    have hdroprec' : D.drop off = encodeSstRecord p.1 p.2 ++ rest0 := hdroprec
    have hdropfile : (D ++ W ++ IX ++ FT).drop off =
        encodeSstRecord p.1 ⟨p.2.seq, p.2.value⟩ ++
          (rest0 ++ (W ++ (IX ++ FT)).drop (off - D.length)) := by
      have h1 : D ++ W ++ IX ++ FT = D ++ (W ++ (IX ++ FT)) := by
        simp [List.append_assoc]
      rw [h1, List.drop_append_eq_append_drop, hdroprec', List.append_assoc]
    exact sstGet_record _ p.1 p.2.seq p.2.value off
      (rest0 ++ (W ++ (IX ++ FT)).drop (off - D.length))
      hidx rfl
      (by intro bf hbf; injection hbf with hbf; rw [← hbf]; exact hBcontains p hp)
      hdropfile (hkeys p hp) (hseqs p hp) (hvals p hp)

/-- **C5.**  Writing a non-empty memtable with sorted keys (the `BTreeMap`
invariant) through `write_from_memtable` succeeds, and — provided the file
size fits in a `u64`, as the Rust writer's stream positions always do —
opening the produced bytes with `SSTableReader::open` succeeds and `get`
returns exactly the stored entry (same seq, same optional value, tombstones
included) for every key of the memtable.  `m`/`k` are the bloom sizing
produced by the code's float formula, constrained only by the code's own
floors and caps (`m ≥ 1` bits, byte length ≤ the reader's 128 MiB cap,
`k` a `u32`); keys obey the 64 KiB cap, live values the 10 MiB cap, and
seqs are `u64`s. -/
theorem sstable_write_read_roundtrip (m k : Nat) (mem : Memtable)
    (hsort : SortedKeys mem.map) (hne : mem.map ≠ [])
    (hkeys : ∀ p ∈ mem.map, p.1.length ≤ MAX_KEY_SIZE)
    (hvals : ∀ p ∈ mem.map, ∀ v, p.2.value = some v → v.length ≤ MAX_VALUE_SIZE)
    (hseqs : ∀ p ∈ mem.map, p.2.seq < U64_LIMIT)
    (hm : 0 < m) (hmcap : (m + 7) / 8 ≤ 128 * 1024 * 1024) (hk : k < 2 ^ 32) :
    ∃ file, writeFromMemtable m k mem = some file ∧
      (file.length < U64_LIMIT →
        ∃ r, sstOpen file = some r ∧
          ∀ p ∈ mem.map, sstGet r p.1 = Except.ok (some p.2)) := by
  obtain ⟨file, hfile, hrest⟩ := writeInternal_roundtrip m k mem.map hsort hne
    hkeys hvals hseqs hm hmcap hk
  refine ⟨file, ?_, hrest⟩
  unfold writeFromMemtable
  have hie : ¬ (mem.is_empty = true) := by
    unfold Memtable.is_empty
    cases hc : mem.map with
    | nil => exact absurd hc hne
    | cons a l => simp
  rw [if_neg hie]
  exact hfile

/-- Witness for C5: a two-entry memtable (a live `[1]` and a tombstoned
`[2]`) with bloom sizing `m = 8`, `k = 2` satisfies every hypothesis of the
round-trip theorem. -/
theorem sstable_write_read_roundtrip_witness :
    SortedKeys c5mem.map ∧
    (∃ file, writeFromMemtable 8 2 c5mem = some file ∧
      (file.length < U64_LIMIT →
        ∃ r, sstOpen file = some r ∧
          ∀ p ∈ c5mem.map, sstGet r p.1 = Except.ok (some p.2))) := by
  have hsort : SortedKeys c5mem.map := by
    unfold SortedKeys c5mem mapKeys
    decide
  have hvals : ∀ p ∈ c5mem.map, ∀ v, p.2.value = some v →
      v.length ≤ MAX_VALUE_SIZE := by
    intro p hp v hv
    simp only [c5mem, List.mem_cons, List.not_mem_nil, or_false] at hp
    rcases hp with h | h
    · subst h
      dsimp only at hv
      injection hv with hv
      subst hv
      decide
    · subst h
      dsimp only at hv
      cases hv
  exact ⟨hsort, sstable_write_read_roundtrip 8 2 c5mem hsort (by decide)
    (by decide) hvals (by decide) (by decide) (by decide) (by decide)⟩

end RiptideKV
